import Mathlib

/-!
# Verification of the SWE-Merge PR miner (`msr.py`)

A shallow embedding of the mining engine of `msr.py`:

* timestamps: Python `datetime` objects (UTC) are modelled as integer counts
  of microseconds since the epoch (`datetime` has microsecond resolution);
  `timedelta` values likewise.  `timedelta / 2` rounds to the nearest
  microsecond, ties to even, which `tdHalf` reproduces.
* Python truthiness: record fields coming from JSON are `Option String`
  (`none` = key absent or JSON null).  `if x:` on such a field is
  `pyTruthyStr` (false for `none` and for the empty string).  A search
  result's `id` is `Option Nat` and `if pr_id:` is false for `none` and `0`.
* the GitHub search endpoint (together with `request_with_backoff` and the
  surrounding `try`/`except`) is a `Provider`: given the base query, the
  day range rendered into the `created:` clause by `strftime('%Y-%m-%d')`,
  and the page number, it yields `total_count` and the page's items, or
  `none` when retries are exhausted / a non-200 response is returned / a
  request exception escapes.
* `datetime.fromisoformat` (an external library routine, applied after the
  `replace('Z', '+00:00')` preprocessing) is an explicit parameter
  `parse : String → Option PyDateTime`; a `none` result models the raised
  `ValueError`.
* the HuggingFace object store collaborators (`list_repo_files`,
  `hf_hub_download` + `load_jsonl`) are `Except Unit` valued parameters; an
  `Except.error` models a raised exception.
* Python `dict`s are insertion-ordered association lists: overwriting keeps
  the original position of a key, new keys are appended, matching CPython.
* the unbounded recursion of `fetch_prs_with_time_partition` is given
  explicit fuel; `none` models nontermination (the recursion has no bound
  in the source).
-/

/-! ## Python value helpers -/

/-- Truthiness of an optional JSON string field: `if x:` in Python is false
for an absent key, for `null` and for the empty string. -/
def pyTruthyStr : Option String → Bool
  | none => false
  | some s => !(s == "")

/-- Truthiness of the optional integer `pr.get('id')`: false for an absent
key / `null` and for `0`. -/
def pyTruthyId : Option Nat → Bool
  | none => false
  | some n => !(n == 0)

/-- Python `s.startswith(pre)`. -/
def pyStartsWith (s pre : String) : Bool :=
  s.data.take pre.data.length == pre.data

/-- Python `s.endswith(suf)`. -/
def pyEndsWith (s suf : String) : Bool :=
  s.data.drop (s.data.length - suf.data.length) == suf.data

/-! ## Time model: microseconds since the epoch -/

/-- Microseconds in one day (`timedelta(days=1)`). -/
def usPerDay : ℤ := 86400000000

/-- Microseconds in one second (`timedelta(seconds=1)`). -/
def usPerSecond : ℤ := 1000000

/-- The calendar day rendered by `strftime('%Y-%m-%d')` on a UTC datetime,
as a day number: the floor of the timestamp in days. -/
def dayOfMicros (t : ℤ) : ℤ := Int.fdiv t usPerDay

/-- Python `timedelta / 2`: halve a duration, rounding to the nearest
microsecond with ties to even. -/
def tdHalf (d : ℤ) : ℤ :=
  if d % 2 = 0 then Int.fdiv d 2
  else if (Int.fdiv d 2) % 2 = 0 then Int.fdiv d 2 else Int.fdiv d 2 + 1

/-! ## Raw matches and metadata records -/

/-- A raw search result as consumed by the miner: `pr.get('id')`,
`pr.get('html_url')`, `pr.get('created_at')`,
`pr.get('pull_request', {}).get('merged_at')` and `pr.get('closed_at')`. -/
structure SearchHit where
  id : Option Nat
  html_url : Option String
  created_at : Option String
  merged_at : Option String
  closed_at : Option String
deriving DecidableEq

/-- The minimal metadata record built by `extract_pr_metadata` and stored in
the day shards. -/
structure MetaRec where
  html_url : Option String
  created_at : Option String
  merged_at : Option String
  closed_at : Option String
deriving DecidableEq

/-- `extract_pr_metadata` (msr.py lines 246-258): copy the four fields; when
`merged_at` is truthy, force `closed_at` to `None`. -/
def extract_pr_metadata (pr : SearchHit) : MetaRec :=
  { html_url := pr.html_url
    created_at := pr.created_at
    merged_at := pr.merged_at
    closed_at := if pyTruthyStr pr.merged_at then none else pr.closed_at }

/-! ## The search provider and the dedup map -/

/-- The paginated search endpoint, as observed through
`request_with_backoff` and `response.json()`: arguments are the base query,
the day range of the `created:` clause and the page number; the result is
`(total_count, items)`, or `none` when retries are exhausted, a non-200
status is returned, or a request exception escapes. -/
structure Provider where
  search : String → ℤ → ℤ → Nat → Option (Nat × List SearchHit)

/-- The shared dedup dictionary `prs_by_id`, an insertion-ordered map from
provider item id to raw match. -/
abbrev PRMap := List (Nat × SearchHit)

/-- `pr_id in prs_by_id`. -/
def containsKey (k : Nat) : PRMap → Bool
  | [] => false
  | (k', _) :: rest => k' == k || containsKey k rest

/-- The `for pr in items:` loop of `fetch_prs_with_time_partition`
(msr.py lines 222-226): add each item whose id is truthy and not yet in
`prs_by_id`, incrementing `total_in_partition` per new item. -/
def insertHits : PRMap → Nat → List SearchHit → PRMap × Nat
  | m, c, [] => (m, c)
  | m, c, pr :: rest =>
    match pr.id with
    | some i =>
      if i ≠ 0 ∧ containsKey i m = false then
        insertHits (m ++ [(i, pr)]) (c + 1) rest
      else insertHits m c rest
    | none => insertHits m c rest

/-- Outcome of the paging `while` loop: either the loop finished for this
range (empty page, short page, page ceiling, debug cap, or a failed
request), or the 1000-result overflow was detected at page 10 and the range
must be split. -/
inductive LoopResult where
  | done (m : PRMap) (cnt : Nat)
  | split (m : PRMap) (cnt : Nat)
deriving DecidableEq

/-- `debug_limit is not None and total_in_partition >= debug_limit`. -/
def dbgReached : Option Nat → Nat → Bool
  | some limit, c => limit ≤ c
  | none, _ => false

/-- The paging `while True:` loop of `fetch_prs_with_time_partition`
(msr.py lines 197-237), starting from a given page, accumulated count and
shared map.  `per_page` is 100; the loop leaves at an empty page, a short
page or page ≥ 10, and signals `split` when `total_count > 1000` at
page 10.  The loop runs at most 10 iterations (it only continues while
`page < 10`); `left` is a structural bound on the remaining iterations,
10 at entry, and never reaches 0 before a break (see
`fetchPages_left_irrelevant`). -/
def fetchPages (P : Provider) (q : String) (sDay eDay : ℤ) (dbg : Option Nat) :
    Nat → Nat → PRMap → Nat → LoopResult
  | 0, _, m, cnt => .done m cnt
  | left + 1, page, m, cnt =>
    if dbgReached dbg cnt then .done m cnt
    else
      match P.search q sDay eDay page with
      | none => .done m cnt
      | some (total, items) =>
        if items = [] then .done m cnt
        else
          match insertHits m cnt items with
          | (m2, cnt2) =>
            if total > 1000 ∧ page = 10 then .split m2 cnt2
            else if items.length < 100 ∨ 10 ≤ page then .done m2 cnt2
            else fetchPages P q sDay eDay dbg left (page + 1) m2 cnt2

/-- `fetch_prs_with_time_partition` (msr.py lines 189-243).  The dates are
datetimes (microseconds); the query sent to the provider carries their day
floors.  On overflow the range is bisected at
`start_date + (end_date - start_date)/2` and the two halves
`[start_date, mid_date]` and `[mid_date + timedelta(days=1), end_date]` are
fetched recursively, their two counts summed.  Fuel bounds the (unbounded,
depth-first) recursion of the source; `none` models nontermination. -/
def fetch_prs_with_time_partition (P : Provider) (base_query : String)
    (start_date end_date : ℤ) (m : PRMap) (dbg : Option Nat) :
    Nat → Option (PRMap × Nat)
  | 0 => none
  | fuel + 1 =>
    match fetchPages P base_query (dayOfMicros start_date) (dayOfMicros end_date) dbg 10 1 m 0 with
    | .done m' c => some (m', c)
    | .split m' _ =>
      let mid_date := start_date + tdHalf (end_date - start_date)
      match fetch_prs_with_time_partition P base_query start_date mid_date m' dbg fuel with
      | none => none
      | some (m1, c1) =>
        match fetch_prs_with_time_partition P base_query (mid_date + usPerDay) end_date m1 dbg fuel with
        | none => none
        | some (m2, c2) => some (m2, c1 + c2)

/-! ## The per-identity mining pass -/

/-- The fetch window computation of `fetch_all_prs_metadata`
(msr.py lines 272-278): `six_months_ago = now - 180 days`, and the start is
`max(start_from_date, six_months_ago)` when a start is supplied, else
`six_months_ago`. -/
def fetch_window_start (now : ℤ) (start_from_date : Option ℤ) : ℤ :=
  let six_months_ago := now - 180 * usPerDay
  match start_from_date with
  | some s => max s six_months_ago
  | none => six_months_ago

/-- The three query patterns of `fetch_all_prs_metadata`
(msr.py lines 266-270). -/
def query_patterns (identifier : String) : List String :=
  ["is:pr author:" ++ identifier,
   "is:pr \"co-authored-by: " ++ identifier ++ "\"",
   "is:pr head:" ++ identifier ++ "/"]

/-- The `for query_pattern in query_patterns:` loop of
`fetch_all_prs_metadata` (msr.py lines 279-296): each pattern is fetched
over the same window with the one shared `prs_by_id` map; the per-pattern
return values of `fetch_prs_with_time_partition` are collected. -/
def runPatterns (P : Provider) (start_date end_date : ℤ) (dbg : Option Nat)
    (fuel : Nat) : List String → PRMap → Option (PRMap × List Nat)
  | [], m => some (m, [])
  | q :: rest, m =>
    match fetch_prs_with_time_partition P q start_date end_date m dbg fuel with
    | none => none
    | some (m', c) =>
      match runPatterns P start_date end_date dbg fuel rest m' with
      | none => none
      | some (mf, cs) => some (mf, c :: cs)

/-- `fetch_all_prs_metadata` (msr.py lines 261-309): compute the window,
run all patterns over the shared map, then extract minimal metadata from
`list(prs_by_id.values())`.  Also returns the per-pattern counts (the
values the source prints). -/
def fetch_all_prs_metadata (P : Provider) (identifier : String)
    (start_from_date : Option ℤ) (now : ℤ) (dbg : Option Nat) (fuel : Nat) :
    Option (List MetaRec × List Nat) :=
  let start_date := fetch_window_start now start_from_date
  match runPatterns P start_date now dbg fuel (query_patterns identifier) [] with
  | none => none
  | some (m, cs) => some (m.map (fun kv => extract_pr_metadata kv.2), cs)

/-- The watermark step of `update_all_agents_incremental`
(msr.py lines 559-566): when a latest PR date exists the fetch starts one
second after it, else from scratch. -/
def start_from_of_watermark (latest_pr_date : Option ℤ) : Option ℤ :=
  match latest_pr_date with
  | some t => some (t + usPerSecond)
  | none => none

/-- Modelled from the spec (§4.3/§4.4): the effective fetch window start is
`max(watermark + 1 second, now - 180 days)` when a watermark exists, and
`now - 180 days` otherwise. -/
def effective_start_spec (now : ℤ) (watermark : Option ℤ) : ℤ :=
  match watermark with
  | some w => max (w + usPerSecond) (now - 180 * usPerDay)
  | none => now - 180 * usPerDay

/-! ## Date parsing and date-keyed grouping -/

/-- The result of `datetime.fromisoformat(s.replace('Z', '+00:00'))`: the
timestamp (microseconds, UTC) together with the calendar fields `year`,
`month`, `day` it exposes.  Datetime comparison is timestamp comparison. -/
structure PyDateTime where
  ts : ℤ
  year : ℤ
  month : ℤ
  day : ℤ
deriving DecidableEq

/-- A date-parse function, standing for the external
`datetime.fromisoformat` (applied after the `replace('Z', '+00:00')`
preprocessing); `none` models the raised `ValueError`. -/
abbrev ParseFn := String → Option PyDateTime

/-- The calendar key `(dt.year, dt.month, dt.day)`. -/
def dateKey (dt : PyDateTime) : ℤ × ℤ × ℤ := (dt.year, dt.month, dt.day)

/-- `grouped[key].append(pr_meta)` on a `defaultdict(list)`: insertion-
ordered by first occurrence of a key, appending within a key's list. -/
def addToGroup (k : ℤ × ℤ × ℤ) (r : MetaRec) :
    List ((ℤ × ℤ × ℤ) × List MetaRec) → List ((ℤ × ℤ × ℤ) × List MetaRec)
  | [] => [(k, [r])]
  | (k', rs) :: rest =>
    if k' = k then (k', rs ++ [r]) :: rest else (k', rs) :: addToGroup k r rest

/-- One step of the `for pr_meta in metadata_list:` loop of
`group_metadata_by_date` (msr.py lines 314-323): skip a record whose
`created_at` is falsy (absent/null/empty) or fails to parse; otherwise file
it under `(dt.year, dt.month, dt.day)`. -/
def groupStep (parse : ParseFn) (g : List ((ℤ × ℤ × ℤ) × List MetaRec))
    (r : MetaRec) : List ((ℤ × ℤ × ℤ) × List MetaRec) :=
  match r.created_at with
  | none => g
  | some s =>
    if s = "" then g
    else
      match parse s with
      | none => g
      | some dt => addToGroup (dateKey dt) r g

/-- `group_metadata_by_date` (msr.py lines 312-324). -/
def group_metadata_by_date (parse : ParseFn) (l : List MetaRec) :
    List ((ℤ × ℤ × ℤ) × List MetaRec) :=
  l.foldl (groupStep parse) []

/-! ## The day-shard merge-upsert (`save_pr_metadata_to_hf`) -/

/-- The url key used by the merge dictionaries: the record's `html_url`
when truthy (`if meta.get('html_url')`), else no key (the record is left
out of the dictionary). -/
def pyUrlKey (r : MetaRec) : Option String :=
  match r.html_url with
  | none => none
  | some s => if s = "" then none else some s

/-- A url-keyed, insertion-ordered Python dict of records. -/
abbrev UrlDict := List (String × MetaRec)

/-- `d[k] = v` on a Python dict: overwrite in place when the key exists,
append otherwise. -/
def dinsert (k : String) (v : MetaRec) : UrlDict → UrlDict
  | [] => [(k, v)]
  | (k', v') :: rest =>
    if k' = k then (k, v) :: rest else (k', v') :: dinsert k v rest

/-- `k in d` for a url dict. -/
def dContains (k : String) : UrlDict → Bool
  | [] => false
  | (k', _) :: rest => k' == k || dContains k rest

/-- `d.get(k)` for a url dict. -/
def dGet (k : String) : UrlDict → Option MetaRec
  | [] => none
  | (k', v) :: rest => if k' = k then some v else dGet k rest

/-- `{meta['html_url']: meta for meta in l if meta.get('html_url')}`
(msr.py lines 359-360). -/
def dictOfRecords (l : List MetaRec) : UrlDict :=
  l.foldl
    (fun d r =>
      match pyUrlKey r with
      | none => d
      | some k => dinsert k r d)
    []

/-- `d1.update(d2)` on Python dicts. -/
def dictUpdate (d1 d2 : UrlDict) : UrlDict :=
  d2.foldl (fun d kv => dinsert kv.1 kv.2 d) d1

/-- The per-day merge of `save_pr_metadata_to_hf` (msr.py lines 359-362):
key existing and new records by truthy url, let the new dict overwrite the
existing one, and keep the merged values. -/
def mergeShard (existing_metadata day_metadata : List MetaRec) : List MetaRec :=
  (dictUpdate (dictOfRecords existing_metadata) (dictOfRecords day_metadata)).map Prod.snd

/-- The production write path of `save_pr_metadata_to_hf`
(msr.py lines 341-372): group the batch by calendar day and, for each
affected day, replace that day's shard by the merge of its existing
records with the day's new records.  `existingFor` stands for
`hf_hub_download` + `load_jsonl` (an absent file is the empty list); the
result lists the `(day, merged shard)` uploads performed. -/
def save_pr_metadata (parse : ParseFn) (existingFor : ℤ × ℤ × ℤ → List MetaRec)
    (metadata_list : List MetaRec) : List ((ℤ × ℤ × ℤ) × List MetaRec) :=
  (group_metadata_by_date parse metadata_list).map
    (fun kg => (kg.1, mergeShard (existingFor kg.1) kg.2))

/-! ## The watermark scan (`get_latest_pr_date_for_agent`) -/

/-- The inner `for pr in metadata:` loop of `get_latest_pr_date_for_agent`
(msr.py lines 480-488): keep the strictly latest parseable `created_at`,
skipping falsy and unparsable ones (`except Exception: continue`). -/
def latestInRecords (parse : ParseFn) (recs : List MetaRec)
    (acc : Option PyDateTime) : Option PyDateTime :=
  recs.foldl
    (fun acc r =>
      match r.created_at with
      | none => acc
      | some s =>
        if s = "" then acc
        else
          match parse s with
          | none => acc
          | some dt =>
            match acc with
            | none => some dt
            | some latest => if latest.ts < dt.ts then some dt else acc)
    acc

/-- `get_latest_pr_date_for_agent` (msr.py lines 460-493).  `listFiles`
stands for `api.list_repo_files` and `download` for `hf_hub_download` +
`load_jsonl`; an `Except.error` models a raised exception.  The outer
`try`/`except` maps a listing failure to `None`; a failing download skips
that file (`except Exception: continue`). -/
def get_latest_pr_date_for_agent (parse : ParseFn) (agent_identifier : String)
    (listFiles : Except Unit (List String))
    (download : String → Except Unit (List MetaRec)) : Option PyDateTime :=
  match listFiles with
  | .error _ => none
  | .ok files =>
    let agent_files := files.filter
      (fun f => pyStartsWith f (agent_identifier ++ "/") && pyEndsWith f ".jsonl")
    if agent_files = [] then none
    else
      agent_files.foldl
        (fun acc f =>
          match download f with
          | .error _ => acc
          | .ok metadata => latestInRecords parse metadata acc)
        none

/-! ## Statistics (`calculate_pr_stats_from_metadata`) -/

/-- Python `round(x, 2)` on the exact value: round to the nearest multiple
of 1/100, ties to even.  (The source rounds a binary float; the model
computes on exact rationals.) -/
def round2 (q : ℚ) : ℚ :=
  let s := q * 100
  let r : ℤ := if s - ⌊s⌋ = 1 / 2 then (if ⌊s⌋ % 2 = 0 then ⌊s⌋ else ⌊s⌋ + 1) else ⌊s + 1 / 2⌋
  (r : ℚ) / 100

/-- The leaderboard statistics row. -/
structure PRStats where
  total_prs : Nat
  merged : Nat
  acceptance_rate : ℚ
deriving DecidableEq

/-- `calculate_pr_stats_from_metadata` (msr.py lines 528-538): `merged`
counts truthy `merged_at`, `closed_not_merged` counts truthy `closed_at`
with falsy `merged_at`, and the acceptance rate is
`merged / (merged + closed_not_merged) * 100` rounded to two decimals, `0`
when there are no decisions. -/
def calculate_pr_stats_from_metadata (metadata_list : List MetaRec) : PRStats :=
  let total_prs := metadata_list.length
  let merged := (metadata_list.filter (fun r => pyTruthyStr r.merged_at)).length
  let closed_not_merged :=
    (metadata_list.filter
      (fun r => pyTruthyStr r.closed_at && !pyTruthyStr r.merged_at)).length
  let total_decisions := merged + closed_not_merged
  let acceptance_rate : ℚ :=
    if 0 < total_decisions then (merged : ℚ) / (total_decisions : ℚ) * 100 else 0
  { total_prs := total_prs
    merged := merged
    acceptance_rate := round2 acceptance_rate }

/-! ## Backoff wait computation (`request_with_backoff`) -/

/-- Whether a status enters the backoff branch of `request_with_backoff`
(msr.py line 152): 403, 429 or any 5xx. -/
def retryable (status : Nat) : Bool :=
  status == 403 || status == 429 || (500 ≤ status && status < 600)

/-- The wait computation of one backoff round (msr.py lines 153-170) for a
retryable status.  `retry_after` is the already-parsed `Retry-After` header
(`none`: header absent/falsy or `float()` raised); `reset_ts` is the parsed
`X-RateLimit-Reset` header; `now` is `time.time()`; `delay` is the current
exponential delay; `jitter` is the drawn `random.uniform(0, 0.5)`. -/
def backoff_wait (status : Nat) (retry_after : Option ℚ) (reset_ts : Option ℚ)
    (now delay jitter : ℚ) : ℚ :=
  let wait1 : Option ℚ := retry_after
  let wait2 : Option ℚ :=
    match wait1 with
    | some w => some w
    | none =>
      if status = 403 ∨ status = 429 then
        match reset_ts with
        | some r => some (max (r - now + 2) 1)
        | none => none
      else none
  let wait : ℚ :=
    match wait2 with
    | some w => w
    | none => delay + jitter
  max 1 (min wait 120)

/-- The delay update `delay = min(delay * 2, 60.0)` (msr.py line 173). -/
def next_delay (d : ℚ) : ℚ := min (d * 2) 60

/-- The delay in force at 0-based attempt `n`: `delay` starts at `1.0` and
is updated by `next_delay` after each retried attempt. -/
def delay_seq : Nat → ℚ
  | 0 => 1
  | n + 1 => next_delay (delay_seq n)

/-! ## Concrete scenarios used by the claims -/

/-- A raw match carrying only a provider id. -/
def evenHit (n : Nat) : SearchHit := ⟨some n, none, none, none, none⟩

/-- Day on which synthetic item `n` was created: items 1-750 on day 0,
items 751-1500 on day 1 (1500 matches evenly spread over two days). -/
def evenDay (n : Nat) : ℤ := if n ≤ 750 then 0 else 1

/-- Items with ids `a, a+1, …, a+n-1`. -/
def mhits (a n : Nat) : List SearchHit := (List.range' a n).map evenHit

/-- The dedup map holding exactly items `a … a+n-1`, keyed by id, in id
order. -/
def keyed (a n : Nat) : PRMap := (List.range' a n).map (fun i => (i, evenHit i))

/-- All 1500 synthetic items, in creation (= id) order. -/
def evenHits : List SearchHit := mhits 1 1500

/-- The items of the synthetic corpus created within a day range. -/
def evenMatches (s e : ℤ) : List SearchHit :=
  evenHits.filter (fun h => s ≤ evenDay (h.id.getD 0) ∧ evenDay (h.id.getD 0) ≤ e)

/-- A faithful synthetic provider over the 1500-item corpus: reports the
true total match count for the queried day range and serves it in
ascending creation order, 100 items per page. -/
def evenProv : Provider :=
  ⟨fun _q s e p =>
    some ((evenMatches s e).length, ((evenMatches s e).drop ((p - 1) * 100)).take 100)⟩

/-- A provider that reports 1001 total matches over the day range `[0, 1]`
and serves every page as 100 copies of item 1, and reports an empty result
for every other day range.  Pages are never short, so the page ceiling is
reached and the overflow split triggers, with only one distinct item ever
added. -/
def repProv : Provider :=
  ⟨fun _q s e _p =>
    if s = 0 ∧ e = 1 then some (1001, List.replicate 100 (evenHit 1))
    else some (0, [])⟩

/-- A raw match with an id and a url. -/
def hitU (n : Nat) (u : String) : SearchHit := ⟨some n, some u, none, none, none⟩

/-- A provider for the cross-pattern dedup scenario: the author pattern for
identity `agentx` matches items 5 and 6, the co-author pattern matches
items 6 and 7 (item 6 is matched by both patterns), the branch-head pattern
matches nothing. -/
def provTwo : Provider :=
  ⟨fun q _s _e _p =>
    if q = "is:pr author:agentx" then some (2, [hitU 5 "u5", hitU 6 "u6"])
    else if q = "is:pr \"co-authored-by: agentx\"" then some (2, [hitU 6 "u6", hitU 7 "u7"])
    else some (0, [])⟩

/-- A concrete parse table: only `2024-06-01T00:00:00Z` parses. -/
def parseC : ParseFn := fun s =>
  if s = "2024-06-01T00:00:00Z" then some ⟨1717200000000000, 2024, 6, 1⟩ else none

/-- A concrete store in which the first of an identity's two shard files
fails to download and the second holds one parseable record. -/
def dlC : String → Except Unit (List MetaRec) := fun f =>
  if f = "agentx/2024.06.02.jsonl" then
    .ok [⟨some "u", some "2024-06-01T00:00:00Z", none, none⟩]
  else .error ()

/-- A raw match whose merge timestamp is the empty string (non-null but
falsy) and whose closed timestamp is set. -/
def hitEmptyMerged : SearchHit :=
  ⟨some 1, some "u1", some "2024-01-01T00:00:00Z", some "", some "2024-01-04T00:00:00Z"⟩

/-- A metadata record whose `merged_at` is the empty string: non-null but
falsy. -/
def recEmptyMerged : MetaRec := ⟨some "u1", some "2024-01-01T00:00:00Z", some "", none⟩

/-- Worked example record A: created 2024-01-01, merged 2024-01-02. -/
def recA : MetaRec :=
  ⟨some "uA", some "2024-01-01T00:00:00Z", some "2024-01-02T00:00:00Z", none⟩

/-- Worked example record B: created 2024-01-03, closed 2024-01-04 without
merge. -/
def recB : MetaRec :=
  ⟨some "uB", some "2024-01-03T00:00:00Z", none, some "2024-01-04T00:00:00Z"⟩

/-- Worked example record C: created 2024-01-05, still open. -/
def recC : MetaRec := ⟨some "uC", some "2024-01-05T00:00:00Z", none, none⟩

/-- A new record with a url but no `created_at` at all. -/
def recNoDate : MetaRec := ⟨some "uX", none, none, none⟩

/-- A record whose `created_at` is missing or unparsable: falsy (absent /
null / empty) or rejected by the date parser. -/
def badDate (parse : ParseFn) (r : MetaRec) : Bool :=
  match r.created_at with
  | none => true
  | some s => if s = "" then true else (parse s).isNone

/-- A well-formed persisted shard: every record carries a truthy url and no
two records share one (the invariant `save_pr_metadata_to_hf` maintains,
see the C10 theorems). -/
def goodShard (l : List MetaRec) : Prop :=
  (∀ r ∈ l, (pyUrlKey r).isSome) ∧ (l.filterMap pyUrlKey).Nodup

/-- The url-keyed entries of a record list, in list order. -/
def urlEntries (l : List MetaRec) : UrlDict :=
  l.filterMap (fun r => (pyUrlKey r).map (fun k => (k, r)))

/-! # Theorems -/

/-! ## C3: merge-implies-closed-null -/

/-- C3 (counterexample): the claim "if merged_at is non-null then closed_at
is null" fails on the code: a raw match whose merge timestamp is the empty
string (non-null but falsy) keeps its closed timestamp, so the derived
record has both fields non-null. -/
theorem C3_empty_string_counterexample :
    (extract_pr_metadata hitEmptyMerged).merged_at = some ""
    ∧ (extract_pr_metadata hitEmptyMerged).closed_at = some "2024-01-04T00:00:00Z"
    ∧ ¬((extract_pr_metadata hitEmptyMerged).merged_at ≠ none →
        (extract_pr_metadata hitEmptyMerged).closed_at = none) := by
  refine ⟨by decide, by decide, ?_⟩
  intro h
  have := h (by decide)
  exact absurd this (by decide)

/-- C3 (amended): for every raw match, if the extracted record's
`merged_at` is truthy (non-null and non-empty) then its `closed_at` is
null, regardless of the raw match's own closed timestamp; truthy
`merged_at` and truthy `closed_at` are never simultaneously present in a
derived record. -/
theorem C3_merge_implies_closed_null (pr : SearchHit) :
    (pyTruthyStr (extract_pr_metadata pr).merged_at = true →
      (extract_pr_metadata pr).closed_at = none)
    ∧ ¬(pyTruthyStr (extract_pr_metadata pr).merged_at = true
        ∧ pyTruthyStr (extract_pr_metadata pr).closed_at = true) := by
  unfold extract_pr_metadata
  cases h : pyTruthyStr pr.merged_at <;> simp [h, pyTruthyStr]

/-- C3 witness: a raw match with a real merge timestamp and a set closed
timestamp extracts to a record with null `closed_at`. -/
theorem C3_merge_implies_closed_null_witness :
    (extract_pr_metadata
      ⟨some 1, some "u", some "c", some "2024-01-02T00:00:00Z", some "2024-01-04T00:00:00Z"⟩).closed_at
      = none :=
  (C3_merge_implies_closed_null _).1 (by decide)

/-! ## C4: statistics -/

/-- C4 (counterexample): the claim "merged equals the count of records with
a non-null merged_at" fails on the code: a record whose `merged_at` is the
empty string (non-null but falsy) is not counted. -/
theorem C4_empty_string_counterexample :
    (calculate_pr_stats_from_metadata [recEmptyMerged]).merged = 0
    ∧ ([recEmptyMerged].filter (fun r => r.merged_at ≠ none)).length = 1 := by
  constructor <;> decide

/-- C4 (amended): for every list of metadata records, `total_prs` is the
list's length, `merged` counts the records with truthy (non-null and
non-empty) `merged_at`, and the acceptance rate is
`merged / (merged + closed-without-merge) * 100` rounded to two decimals,
`0` when no record is decided; the empty list yields `{0, 0, 0}`, a list of
only still-open records yields rate 0, and the three-record worked example
yields `total=3, merged=1, acceptance_rate=50`. -/
theorem C4_stats (l : List MetaRec) :
    (calculate_pr_stats_from_metadata l).total_prs = l.length
    ∧ (calculate_pr_stats_from_metadata l).merged
        = (l.filter (fun r => pyTruthyStr r.merged_at)).length
    ∧ (calculate_pr_stats_from_metadata l).acceptance_rate
        = (if 0 < (l.filter (fun r => pyTruthyStr r.merged_at)).length
              + (l.filter (fun r => pyTruthyStr r.closed_at && !pyTruthyStr r.merged_at)).length
           then round2 (((l.filter (fun r => pyTruthyStr r.merged_at)).length : ℚ)
              / (((l.filter (fun r => pyTruthyStr r.merged_at)).length
                  + (l.filter (fun r => pyTruthyStr r.closed_at && !pyTruthyStr r.merged_at)).length : Nat) : ℚ)
              * 100)
           else 0)
    ∧ calculate_pr_stats_from_metadata [] = ⟨0, 0, 0⟩
    ∧ ((∀ r ∈ l, pyTruthyStr r.merged_at = false ∧ pyTruthyStr r.closed_at = false) →
        (calculate_pr_stats_from_metadata l).acceptance_rate = 0)
    ∧ calculate_pr_stats_from_metadata [recA, recB, recC] = ⟨3, 1, 50⟩ := by
  refine ⟨rfl, rfl, ?_, ?_, ?_, ?_⟩
  · simp only [calculate_pr_stats_from_metadata]
    split
    · rfl
    · show round2 0 = 0
      rw [round2]
      norm_num
  · show (⟨0, 0, round2 0⟩ : PRStats) = ⟨0, 0, 0⟩
    rw [round2]
    norm_num
  · intro hopen
    have hm : l.filter (fun r => pyTruthyStr r.merged_at) = [] :=
      List.filter_eq_nil_iff.mpr (fun r hr => by simp [(hopen r hr).1])
    have hc : l.filter (fun r => pyTruthyStr r.closed_at && !pyTruthyStr r.merged_at) = [] :=
      List.filter_eq_nil_iff.mpr (fun r hr => by simp [(hopen r hr).1, (hopen r hr).2])
    simp only [calculate_pr_stats_from_metadata, hm, hc]
    show round2 0 = 0
    rw [round2]
    norm_num
  · show (⟨3, 1, round2 ((1 : ℚ) / ((2 : Nat) : ℚ) * 100)⟩ : PRStats) = ⟨3, 1, 50⟩
    rw [round2]
    norm_num

/-- C4 witness: a list of two still-open records has rate 0 with
`total = 2`. -/
theorem C4_stats_witness :
    (calculate_pr_stats_from_metadata [recC, recC]).acceptance_rate = 0
    ∧ (calculate_pr_stats_from_metadata [recC, recC]).total_prs = 2 :=
  ⟨(C4_stats [recC, recC]).2.2.2.2.1 (by decide), (C4_stats [recC, recC]).1⟩

/-! ## C5: effective fetch window -/

/-- C5: composing the watermark step of `update_all_agents_incremental`
with the window computation of `fetch_all_prs_metadata` gives exactly the
spec's effective window start: `max(watermark + 1 second, now - 180 days)`
with a watermark, `now - 180 days` without; with the latest persisted
`created_at` at `2024-06-01T00:00:00Z` (within the floor of a September
2024 `now`), the window starts at `2024-06-01T00:00:01Z`. -/
theorem C5_effective_window (now : ℤ) (w : Option ℤ) :
    fetch_window_start now (start_from_of_watermark w) = effective_start_spec now w
    ∧ fetch_window_start 1727200000000000 (start_from_of_watermark (some 1717200000000000))
        = 1717200000000000 + usPerSecond := by
  constructor
  · cases w <;> rfl
  · decide

/-! ## C7: backoff wait computation -/

/-- C7: for a retryable status the wait is chosen in priority order — a
parseable Retry-After value; else, for 403/429 only, the rate-limit reset
(`reset - now + 2`); else the exponential delay plus jitter — and the final
wait is always clamped to `[1, 120]`; the exponential delay at attempt `n`
is `min (2^n) 60` (starts at 1, doubles, capped at 60). -/
theorem C7_backoff_wait (status : Nat) (ra rs now d j : ℚ)
    (ra? rs? : Option ℚ) :
    (backoff_wait status (some ra) rs? now d j = max 1 (min ra 120))
    ∧ ((status = 403 ∨ status = 429) →
        backoff_wait status none (some rs) now d j = max 1 (min (rs - now + 2) 120))
    ∧ (¬(status = 403 ∨ status = 429) →
        backoff_wait status none (some rs) now d j = max 1 (min (d + j) 120))
    ∧ (backoff_wait status none none now d j = max 1 (min (d + j) 120))
    ∧ (1 ≤ backoff_wait status ra? rs? now d j ∧ backoff_wait status ra? rs? now d j ≤ 120)
    ∧ (∀ n, delay_seq n = min (2 ^ n) 60) := by
  have hclamp : ∀ w : ℚ, max 1 (min (max w 1) 120) = max 1 (min w 120) := by
    intro w
    rcases le_total w 1 with h1 | h1
    · rw [max_eq_right h1]
      have : min w 120 ≤ 1 := le_trans (min_le_left _ _) h1
      rw [min_eq_left (by norm_num), max_eq_left (by norm_num), max_eq_left this]
    · rw [max_eq_left h1]
  refine ⟨rfl, ?_, ?_, ?_, ⟨le_max_left _ _, ?_⟩, ?_⟩
  · intro h
    simp only [backoff_wait, if_pos h]
    exact hclamp _
  · intro h
    simp only [backoff_wait, if_neg h]
  · by_cases h : status = 403 ∨ status = 429
    · simp only [backoff_wait, if_pos h]
    · simp only [backoff_wait, if_neg h]
  · exact max_le (by norm_num) (min_le_right _ _)
  · intro n
    induction n with
    | zero =>
      show (1 : ℚ) = min (2 ^ 0) 60
      norm_num
    | succ n ih =>
      rw [delay_seq, next_delay, ih, pow_succ]
      rcases le_total ((2 : ℚ) ^ n) 60 with h | h
      · rw [min_eq_left h]
      · rw [min_eq_right h, min_eq_right (by norm_num), min_eq_right (by nlinarith)]

/-- C7 witness: at status 429 with no Retry-After and a reset 50 seconds
ahead, the wait is 52 seconds; the delay at attempt 7 is 60. -/
theorem C7_backoff_wait_witness :
    backoff_wait 429 none (some 100) 50 1 0 = 52 ∧ delay_seq 7 = 60 := by
  constructor
  · rw [(C7_backoff_wait 429 0 100 50 1 0 none (some 100)).2.1 (Or.inr rfl)]
    norm_num
  · rw [(C7_backoff_wait 429 0 100 50 1 0 none (some 100)).2.2.2.2.2 7]
    norm_num

/-! ## Dictionary lemmas (for C6, C8, C10) -/

lemma dGet_dinsert (k k' : String) (v : MetaRec) (d : UrlDict) :
    dGet k' (dinsert k v d) = if k = k' then some v else dGet k' d := by
  induction d with
  | nil => simp [dinsert, dGet]
  | cons kv rest ih =>
    by_cases h : kv.1 = k
    · rw [dinsert, if_pos h]
      by_cases h' : k = k'
      · rw [dGet, if_pos h', if_pos h']
      · rw [dGet, if_neg h', if_neg h', dGet, if_neg (fun hh => h' (h.symm.trans hh))]
    · rw [dinsert, if_neg h]
      by_cases h' : kv.1 = k'
      · have hkk : ¬k = k' := fun hk => h (h'.trans hk.symm)
        rw [dGet, if_pos h', if_neg hkk, dGet, if_pos h']
      · rw [dGet, if_neg h', ih, dGet, if_neg h']

lemma dContains_iff_mem (k : String) (d : UrlDict) :
    dContains k d = true ↔ k ∈ d.map Prod.fst := by
  induction d with
  | nil => simp [dContains]
  | cons kv rest ih =>
    rw [dContains]
    simp only [Bool.or_eq_true, beq_iff_eq, ih, List.map_cons, List.mem_cons]
    exact or_congr eq_comm Iff.rfl

lemma dinsert_eq_append (k : String) (v : MetaRec) (d : UrlDict)
    (h : dContains k d = false) : dinsert k v d = d ++ [(k, v)] := by
  induction d with
  | nil => rfl
  | cons kv rest ih =>
    rw [dContains, Bool.or_eq_false_iff] at h
    have h1 : ¬kv.1 = k := by simpa using h.1
    rw [dinsert, if_neg h1, ih h.2, List.cons_append]

lemma keys_dinsert_mem (k : String) (v : MetaRec) (d : UrlDict)
    (h : dContains k d = true) :
    (dinsert k v d).map Prod.fst = d.map Prod.fst := by
  induction d with
  | nil => simp [dContains] at h
  | cons kv rest ih =>
    by_cases h1 : kv.1 = k
    · rw [dinsert, if_pos h1, List.map_cons, List.map_cons, h1]
    · have hb : (kv.1 == k) = false := by simpa using h1
      rw [dContains, hb, Bool.false_or] at h
      rw [dinsert, if_neg h1, List.map_cons, List.map_cons, ih h]

lemma length_dinsert (k : String) (v : MetaRec) (d : UrlDict) :
    (dinsert k v d).length = if dContains k d then d.length else d.length + 1 := by
  induction d with
  | nil => simp [dinsert, dContains]
  | cons kv rest ih =>
    by_cases h1 : kv.1 = k
    · simp [dinsert, h1, dContains]
    · have hb : (kv.1 == k) = false := by simpa using h1
      rw [dinsert, if_neg h1, List.length_cons, List.length_cons, ih, dContains, hb,
        Bool.false_or]
      split <;> rfl

lemma nodup_keys_dinsert (k : String) (v : MetaRec) (d : UrlDict)
    (h : (d.map Prod.fst).Nodup) : ((dinsert k v d).map Prod.fst).Nodup := by
  cases hc : dContains k d with
  | true => rwa [keys_dinsert_mem k v d hc]
  | false =>
    rw [dinsert_eq_append k v d hc, List.map_append]
    have hk : k ∉ d.map Prod.fst := fun hm => by
      rw [(dContains_iff_mem k d).mpr hm] at hc
      exact absurd hc (by decide)
    simp [List.nodup_append, h, hk]

lemma dinsert_inv {P : String → MetaRec → Prop} {k : String} {v : MetaRec}
    {d : UrlDict} (hd : ∀ kv ∈ d, P kv.1 kv.2) (hkv : P k v) :
    ∀ kv ∈ dinsert k v d, P kv.1 kv.2 := by
  induction d with
  | nil => simpa [dinsert] using hkv
  | cons kv' rest ih =>
    intro kv hm
    by_cases h : kv'.1 = k
    · rw [dinsert, if_pos h] at hm
      rcases List.mem_cons.mp hm with h1 | h1
      · subst h1; exact hkv
      · exact hd kv (List.mem_cons_of_mem _ h1)
    · rw [dinsert, if_neg h] at hm
      rcases List.mem_cons.mp hm with h1 | h1
      · subst h1; exact hd _ (List.mem_cons_self _ _)
      · exact ih (fun x hx => hd x (List.mem_cons_of_mem _ hx)) kv h1

lemma dGet_eq_none (k : String) (d : UrlDict) (h : k ∉ d.map Prod.fst) :
    dGet k d = none := by
  induction d with
  | nil => rfl
  | cons kv rest ih =>
    rw [List.map_cons, List.mem_cons] at h
    push_neg at h
    rw [dGet, if_neg (fun hh => h.1 hh.symm), ih h.2]

lemma mem_dinsert_of_ne (kv : String × MetaRec) (k : String) (v : MetaRec)
    (d : UrlDict) (hm : kv ∈ d) (hne : kv.1 ≠ k) : kv ∈ dinsert k v d := by
  induction d with
  | nil => cases hm
  | cons kv' rest ih =>
    by_cases h : kv'.1 = k
    · rw [dinsert, if_pos h]
      rcases List.mem_cons.mp hm with h1 | h1
      · exact absurd (h1 ▸ h) hne
      · exact List.mem_cons_of_mem _ h1
    · rw [dinsert, if_neg h]
      rcases List.mem_cons.mp hm with h1 | h1
      · exact h1 ▸ List.mem_cons_self _ _
      · exact List.mem_cons_of_mem _ (ih h1)

lemma foldRecords_nodup (l : List MetaRec) :
    ∀ d : UrlDict, (d.map Prod.fst).Nodup →
      ((List.foldl
        (fun d r =>
          match pyUrlKey r with
          | none => d
          | some k => dinsert k r d)
        d l).map Prod.fst).Nodup := by
  induction l with
  | nil => exact fun d h => h
  | cons r rest ih =>
    intro d hd
    rw [List.foldl_cons]
    cases hk : pyUrlKey r with
    | none => exact ih d hd
    | some k => exact ih _ (nodup_keys_dinsert k r d hd)

lemma foldRecords_inv (l : List MetaRec) :
    ∀ d : UrlDict, (∀ kv ∈ d, pyUrlKey kv.2 = some kv.1) →
      ∀ kv ∈ (List.foldl
        (fun d r =>
          match pyUrlKey r with
          | none => d
          | some k => dinsert k r d)
        d l), pyUrlKey kv.2 = some kv.1 := by
  induction l with
  | nil => exact fun d h => h
  | cons r rest ih =>
    intro d hd
    rw [List.foldl_cons]
    cases hk : pyUrlKey r with
    | none => exact ih d hd
    | some k =>
      exact ih (dinsert k r d)
        (dinsert_inv (P := fun k v => pyUrlKey v = some k) hd hk)

lemma urlEntries_cons (r : MetaRec) (l : List MetaRec) :
    urlEntries (r :: l) =
      (match pyUrlKey r with
       | none => urlEntries l
       | some k => (k, r) :: urlEntries l) := by
  cases hk : pyUrlKey r with
  | none => simp [urlEntries, List.filterMap_cons, hk]
  | some k => simp [urlEntries, List.filterMap_cons, hk]

lemma urlEntries_keys (l : List MetaRec) :
    (urlEntries l).map Prod.fst = l.filterMap pyUrlKey := by
  induction l with
  | nil => rfl
  | cons r rest ih =>
    rw [urlEntries_cons, List.filterMap_cons]
    cases hk : pyUrlKey r with
    | none => exact ih
    | some k => rw [List.map_cons, ih]

lemma foldRecords_eq (l : List MetaRec) :
    ∀ d : UrlDict, ((d.map Prod.fst) ++ l.filterMap pyUrlKey).Nodup →
      (List.foldl
        (fun d r =>
          match pyUrlKey r with
          | none => d
          | some k => dinsert k r d)
        d l) = d ++ urlEntries l := by
  induction l with
  | nil => simp [urlEntries]
  | cons r rest ih =>
    intro d hd
    cases hk : pyUrlKey r with
    | none =>
      rw [List.filterMap_cons_none hk] at hd
      simp only [List.foldl_cons, urlEntries_cons, hk]
      exact ih d hd
    | some k =>
      rw [List.filterMap_cons_some hk] at hd
      have hknotin : k ∉ d.map Prod.fst := fun hmem =>
        (List.nodup_append.mp hd).2.2 hmem (List.mem_cons_self _ _)
      have hc : dContains k d = false := by
        cases hcc : dContains k d with
        | true => exact absurd ((dContains_iff_mem k d).mp hcc) hknotin
        | false => rfl
      have hd' : ((d ++ [(k, r)]).map Prod.fst ++ rest.filterMap pyUrlKey).Nodup := by
        rw [List.map_append, List.append_assoc]
        simpa using hd
      simp only [List.foldl_cons, urlEntries_cons, hk, dinsert_eq_append k r d hc]
      rw [ih (d ++ [(k, r)]) hd', List.append_assoc]
      rfl

lemma dictOfRecords_nodup_keys (l : List MetaRec) :
    ((dictOfRecords l).map Prod.fst).Nodup := by
  rw [dictOfRecords]
  exact foldRecords_nodup l [] (by simp)

lemma dictOfRecords_inv (l : List MetaRec) :
    ∀ kv ∈ dictOfRecords l, pyUrlKey kv.2 = some kv.1 := by
  rw [dictOfRecords]
  exact foldRecords_inv l [] (by simp)

lemma dictOfRecords_eq (l : List MetaRec) (h : (l.filterMap pyUrlKey).Nodup) :
    dictOfRecords l = urlEntries l := by
  rw [dictOfRecords]
  have := foldRecords_eq l [] (by simpa using h)
  simpa using this

lemma dictUpdate_cons (d1 : UrlDict) (kv : String × MetaRec) (d2 : UrlDict) :
    dictUpdate d1 (kv :: d2) = dictUpdate (dinsert kv.1 kv.2 d1) d2 := rfl

lemma dGet_dictUpdate (d2 : UrlDict) :
    ∀ d1 : UrlDict, (d2.map Prod.fst).Nodup → ∀ u : String,
      dGet u (dictUpdate d1 d2)
        = (match dGet u d2 with
           | some v => some v
           | none => dGet u d1) := by
  induction d2 with
  | nil => intro d1 _ u; rfl
  | cons kv rest ih =>
    intro d1 hnd u
    rw [List.map_cons, List.nodup_cons] at hnd
    rw [dictUpdate_cons, ih (dinsert kv.1 kv.2 d1) hnd.2 u]
    by_cases h : kv.1 = u
    · have : dGet u rest = none := dGet_eq_none u rest (h ▸ hnd.1)
      rw [this, dGet, if_pos h, dGet_dinsert, if_pos h]
    · rw [dGet, if_neg h]
      cases hr : dGet u rest with
      | some v => rfl
      | none => rw [dGet_dinsert, if_neg h]

lemma dictUpdate_inv {d1 d2 : UrlDict}
    (h1 : ∀ kv ∈ d1, pyUrlKey kv.2 = some kv.1)
    (h2 : ∀ kv ∈ d2, pyUrlKey kv.2 = some kv.1) :
    ∀ kv ∈ dictUpdate d1 d2, pyUrlKey kv.2 = some kv.1 := by
  induction d2 generalizing d1 with
  | nil => exact h1
  | cons kv' rest ih =>
    rw [dictUpdate_cons]
    exact ih
      (dinsert_inv (P := fun k v => pyUrlKey v = some k) h1
        (h2 kv' (List.mem_cons_self _ _)))
      (fun x hx => h2 x (List.mem_cons_of_mem _ hx))

lemma mem_dictUpdate_left {kv : String × MetaRec} {d1 : UrlDict} (d2 : UrlDict)
    (hm : kv ∈ d1) (hno : ∀ kv' ∈ d2, kv'.1 ≠ kv.1) : kv ∈ dictUpdate d1 d2 := by
  induction d2 generalizing d1 with
  | nil => exact hm
  | cons kv' rest ih =>
    rw [dictUpdate_cons]
    exact ih
      (mem_dinsert_of_ne kv kv'.1 kv'.2 d1 hm
        (fun hh => hno kv' (List.mem_cons_self _ _) (hh ▸ rfl)))
      (fun x hx => hno x (List.mem_cons_of_mem _ hx))

lemma pyUrlKey_isSome_iff (r : MetaRec) :
    (pyUrlKey r).isSome = pyTruthyStr r.html_url := by
  cases h : r.html_url with
  | none => simp [pyUrlKey, pyTruthyStr, h]
  | some s =>
    by_cases hs : s = ""
    · simp [pyUrlKey, pyTruthyStr, h, hs]
    · simp [pyUrlKey, pyTruthyStr, h, hs]

lemma length_urlEntries (l : List MetaRec) (h : ∀ r ∈ l, (pyUrlKey r).isSome) :
    (urlEntries l).length = l.length := by
  induction l with
  | nil => rfl
  | cons r rest ih =>
    rw [urlEntries_cons]
    cases hk : pyUrlKey r with
    | none =>
      have := h r (List.mem_cons_self _ _)
      rw [hk] at this
      cases this
    | some k =>
      rw [List.length_cons, ih (fun x hx => h x (List.mem_cons_of_mem _ hx))]
      rfl

/-! ## C6: merge-upsert correctness -/

/-- C6: the merged shard is the existing records merged with the new
records keyed by url — a lookup in the merged dict yields the new record
when the url occurs among the new records, else the existing one — and on
a well-formed shard, upserting one record whose url already exists leaves
the cardinality unchanged while upserting one with a fresh url increases
it by exactly one. -/
theorem C6_merge_upsert :
    (∀ existing_metadata day_metadata : List MetaRec, ∀ u : String,
      dGet u (dictUpdate (dictOfRecords existing_metadata) (dictOfRecords day_metadata))
        = (match dGet u (dictOfRecords day_metadata) with
           | some v => some v
           | none => dGet u (dictOfRecords existing_metadata)))
    ∧ (∀ (existing_metadata : List MetaRec) (r : MetaRec) (k : String),
        goodShard existing_metadata → pyUrlKey r = some k →
        k ∈ existing_metadata.filterMap pyUrlKey →
        (mergeShard existing_metadata [r]).length = existing_metadata.length)
    ∧ (∀ (existing_metadata : List MetaRec) (r : MetaRec) (k : String),
        goodShard existing_metadata → pyUrlKey r = some k →
        k ∉ existing_metadata.filterMap pyUrlKey →
        (mergeShard existing_metadata [r]).length = existing_metadata.length + 1) := by
  have hsingle : ∀ (r : MetaRec) (k : String), pyUrlKey r = some k →
      dictOfRecords [r] = [(k, r)] := by
    intro r k hk
    simp [dictOfRecords, hk, dinsert]
  have hmerge : ∀ (ex : List MetaRec) (r : MetaRec) (k : String),
      pyUrlKey r = some k →
      mergeShard ex [r] = (dinsert k r (dictOfRecords ex)).map Prod.snd := by
    intro ex r k hk
    rw [mergeShard, hsingle r k hk, dictUpdate_cons]
    rfl
  have hcard : ∀ (ex : List MetaRec), goodShard ex →
      (dictOfRecords ex).length = ex.length
        ∧ (dictOfRecords ex).map Prod.fst = ex.filterMap pyUrlKey := by
    intro ex hg
    rw [dictOfRecords_eq ex hg.2, urlEntries_keys]
    exact ⟨length_urlEntries ex hg.1, rfl⟩
  refine ⟨?_, ?_, ?_⟩
  · intro ex nw u
    exact dGet_dictUpdate (dictOfRecords nw) (dictOfRecords ex)
      (dictOfRecords_nodup_keys nw) u
  · intro ex r k hg hk hmem
    have hc : dContains k (dictOfRecords ex) = true :=
      (dContains_iff_mem _ _).mpr ((hcard ex hg).2 ▸ hmem)
    rw [hmerge ex r k hk, List.length_map, length_dinsert, hc, if_pos rfl,
      (hcard ex hg).1]
  · intro ex r k hg hk hmem
    have hc : dContains k (dictOfRecords ex) = false := by
      cases hcc : dContains k (dictOfRecords ex) with
      | true =>
        exact absurd ((hcard ex hg).2 ▸ (dContains_iff_mem _ _).mp hcc) hmem
      | false => rfl
    rw [hmerge ex r k hk, List.length_map, length_dinsert, hc]
    rw [if_neg (by simp), (hcard ex hg).1]

/-- C6 witness: upserting a record with the already-present url `uA` into
the one-record shard `[recA]` keeps cardinality 1; upserting `recB` (url
`uB`) yields cardinality 2. -/
theorem C6_merge_upsert_witness :
    (mergeShard [recA] [⟨some "uA", some "x", none, none⟩]).length = 1
    ∧ (mergeShard [recA] [recB]).length = 2 :=
  ⟨C6_merge_upsert.2.1 [recA] ⟨some "uA", some "x", none, none⟩ "uA"
      ⟨by decide, by decide⟩ (by decide) (by decide),
   C6_merge_upsert.2.2 [recA] recB "uB" ⟨by decide, by decide⟩ (by decide) (by decide)⟩

/-! ## C10: persisted records always carry a truthy url -/

/-- C10: every record in a merged shard has a truthy (non-null, non-empty)
`html_url`: any record, existing or new, whose url is missing, null or
empty is dropped from the url-keyed merge and never written back. -/
theorem C10_url_invariant :
    (∀ existing_metadata day_metadata : List MetaRec, ∀ r : MetaRec,
      r ∈ mergeShard existing_metadata day_metadata → pyTruthyStr r.html_url = true)
    ∧ (∀ existing_metadata day_metadata : List MetaRec, ∀ r : MetaRec,
      pyTruthyStr r.html_url = false → r ∉ mergeShard existing_metadata day_metadata) := by
  have h1 : ∀ existing_metadata day_metadata : List MetaRec, ∀ r : MetaRec,
      r ∈ mergeShard existing_metadata day_metadata → pyTruthyStr r.html_url = true := by
    intro ex nw r hm
    rw [mergeShard] at hm
    rcases List.mem_map.mp hm with ⟨kv, hkv, hsnd⟩
    have := dictUpdate_inv (dictOfRecords_inv ex) (dictOfRecords_inv nw) kv hkv
    rw [hsnd] at this
    rw [← pyUrlKey_isSome_iff, this]
    rfl
  refine ⟨h1, fun ex nw r hfalse hm => ?_⟩
  rw [h1 ex nw r hm] at hfalse
  cases hfalse

/-- C10 witness: the record `recA` survives an upsert with no new records
and indeed carries a truthy url; a record with an empty url is not in the
merge result. -/
theorem C10_url_invariant_witness :
    pyTruthyStr recA.html_url = true
    ∧ (⟨some "", none, none, none⟩ : MetaRec) ∉ mergeShard [⟨some "", none, none, none⟩] [recA] :=
  ⟨C10_url_invariant.1 [recA] [] recA (by decide),
   C10_url_invariant.2 [⟨some "", none, none, none⟩] [recA] _ (by decide)⟩

/-! ## Grouping and watermark lemmas (for C8, C9) -/

/-- The membership invariant satisfied by every group: each filed record
has a truthy, parseable `created_at` whose calendar key is the group's. -/
def GroupInv (parse : ParseFn) (g : List ((ℤ × ℤ × ℤ) × List MetaRec)) : Prop :=
  ∀ kg ∈ g, ∀ rec ∈ kg.2, ∃ s dt,
    rec.created_at = some s ∧ ¬s = "" ∧ parse s = some dt ∧ kg.1 = dateKey dt

lemma groupInv_addToGroup {parse : ParseFn} {g : List ((ℤ × ℤ × ℤ) × List MetaRec)}
    {k : ℤ × ℤ × ℤ} {r : MetaRec} (hg : GroupInv parse g)
    (hr : ∃ s dt, r.created_at = some s ∧ ¬s = "" ∧ parse s = some dt ∧ k = dateKey dt) :
    GroupInv parse (addToGroup k r g) := by
  induction g with
  | nil =>
    intro kg hkg rec hrec
    rw [addToGroup] at hkg
    rcases List.mem_cons.mp hkg with h1 | h1
    · subst h1
      rcases List.mem_cons.mp hrec with h2 | h2
      · subst h2; exact hr
      · cases h2
    · cases h1
  | cons kg0 rest ih =>
    intro kg hkg rec hrec
    rw [addToGroup] at hkg
    by_cases h : kg0.1 = k
    · rw [if_pos h] at hkg
      rcases List.mem_cons.mp hkg with h1 | h1
      · subst h1
        rcases List.mem_append.mp hrec with h2 | h2
        · exact hg kg0 (List.mem_cons_self _ _) rec h2
        · rcases List.mem_singleton.mp h2 with rfl
          rcases hr with ⟨s, dt, hs, hne, hp, hk⟩
          exact ⟨s, dt, hs, hne, hp, h ▸ hk⟩
      · exact hg kg (List.mem_cons_of_mem _ h1) rec hrec
    · rw [if_neg h] at hkg
      rcases List.mem_cons.mp hkg with h1 | h1
      · subst h1
        exact hg kg0 (List.mem_cons_self _ _) rec hrec
      · exact ih (fun x hx => hg x (List.mem_cons_of_mem _ hx)) kg h1 rec hrec

lemma groupInv_foldl (parse : ParseFn) (l : List MetaRec) :
    ∀ g, GroupInv parse g → GroupInv parse (l.foldl (groupStep parse) g) := by
  induction l with
  | nil => exact fun g h => h
  | cons r rest ih =>
    intro g hg
    rw [List.foldl_cons]
    refine ih _ ?_
    cases hc : r.created_at with
    | none => simpa only [groupStep, hc] using hg
    | some s =>
      by_cases hs : s = ""
      · simpa only [groupStep, hc, if_pos hs] using hg
      · cases hp : parse s with
        | none => simpa only [groupStep, hc, if_neg hs, hp] using hg
        | some dt =>
          simpa only [groupStep, hc, if_neg hs, hp] using
            groupInv_addToGroup hg ⟨s, dt, hc, hs, hp, rfl⟩

lemma latestInRecords_skip (parse : ParseFn) (r : MetaRec) (recs : List MetaRec)
    (acc : Option PyDateTime) (hbad : badDate parse r = true) :
    latestInRecords parse (r :: recs) acc = latestInRecords parse recs acc := by
  rw [latestInRecords, latestInRecords, List.foldl_cons]
  congr 1
  rw [badDate] at hbad
  cases hc : r.created_at with
  | none => rfl
  | some s =>
    rw [hc] at hbad
    by_cases hs : s = ""
    · simp [hs]
    · simp only [if_neg hs] at hbad
      cases hp : parse s with
      | none => simp [hs, hp]
      | some dt =>
        rw [hp] at hbad
        cases hbad

lemma mem_urlEntries {r : MetaRec} {l : List MetaRec} {k : String}
    (hr : r ∈ l) (hk : pyUrlKey r = some k) : (k, r) ∈ urlEntries l :=
  List.mem_filterMap.mpr ⟨r, hr, by rw [hk]; rfl⟩

lemma foldRecords_pred {P : String → MetaRec → Prop} (l : List MetaRec)
    (hl : ∀ r ∈ l, ∀ k, pyUrlKey r = some k → P k r) :
    ∀ d : UrlDict, (∀ kv ∈ d, P kv.1 kv.2) →
      ∀ kv ∈ (List.foldl
        (fun d r =>
          match pyUrlKey r with
          | none => d
          | some k => dinsert k r d)
        d l), P kv.1 kv.2 := by
  induction l with
  | nil => exact fun d h => h
  | cons r rest ih =>
    intro d hd
    rw [List.foldl_cons]
    cases hk : pyUrlKey r with
    | none =>
      exact ih (fun x hx k hxk => hl x (List.mem_cons_of_mem _ hx) k hxk) d hd
    | some k =>
      exact ih (fun x hx k' hxk => hl x (List.mem_cons_of_mem _ hx) k' hxk)
        (dinsert k r d)
        (dinsert_inv hd (hl r (List.mem_cons_self _ _) k hk))

/-! ## C8: records with missing or unparsable created_at -/

/-- C8 (counterexample): the claim "…but is otherwise retained by the
pipeline (it is not lost from the persisted data)" fails for a newly
fetched record: saving a batch consisting of one record with a url but no
`created_at` performs no upload at all — the record is silently dropped
from persistence. -/
theorem C8_new_record_dropped_counterexample :
    save_pr_metadata (fun _ => none) (fun _ => []) [recNoDate] = []
    ∧ recNoDate.html_url = some "uX" := by
  constructor <;> decide

/-- C8 (amended): a record with missing or unparsable `created_at` is
excluded from date-keyed grouping and from watermark computation; a record
already persisted in a shard (with a truthy url not overwritten by the
batch) is retained by the merge-upsert even when its date is bad, and such
records still count towards the statistics total; but a newly fetched
record with a bad date is never persisted (see the counterexample). -/
theorem C8_bad_date_handling (parse : ParseFn) :
    (∀ (l : List MetaRec) (kg : (ℤ × ℤ × ℤ) × List MetaRec) (rec : MetaRec),
      kg ∈ group_metadata_by_date parse l → rec ∈ kg.2 →
      badDate parse rec = false)
    ∧ (∀ (r : MetaRec) (recs : List MetaRec) (acc : Option PyDateTime),
        badDate parse r = true →
        latestInRecords parse (r :: recs) acc = latestInRecords parse recs acc)
    ∧ (∀ (existing_metadata day_metadata : List MetaRec) (r : MetaRec) (k : String),
        badDate parse r = true →
        goodShard existing_metadata → r ∈ existing_metadata → pyUrlKey r = some k →
        k ∉ day_metadata.filterMap pyUrlKey →
        r ∈ mergeShard existing_metadata day_metadata)
    ∧ (∀ (l : List MetaRec) (r : MetaRec),
        (calculate_pr_stats_from_metadata (r :: l)).total_prs = l.length + 1) := by
  refine ⟨?_, ?_, ?_, ?_⟩
  · intro l kg rec hkg hrec
    have hinv := groupInv_foldl parse l [] (by intro kg h; cases h)
    rw [group_metadata_by_date] at hkg
    rcases hinv kg hkg rec hrec with ⟨s, dt, hs, hne, hp, _⟩
    simp only [badDate, hs, if_neg hne, hp]
    rfl
  · exact fun r recs acc h => latestInRecords_skip parse r recs acc h
  · intro ex nw r k _hbad hg hr hk hnot
    rw [mergeShard]
    have hmem : (k, r) ∈ dictOfRecords ex := by
      rw [dictOfRecords_eq ex hg.2]
      exact mem_urlEntries hr hk
    have hupd : (k, r) ∈ dictUpdate (dictOfRecords ex) (dictOfRecords nw) := by
      refine mem_dictUpdate_left (dictOfRecords nw) hmem ?_
      intro kv' hkv' hkeq
      refine hnot ?_
      have hsub : ∀ kv ∈ dictOfRecords nw, kv.1 ∈ nw.filterMap pyUrlKey := by
        refine foldRecords_pred (P := fun kk vv => kk ∈ nw.filterMap pyUrlKey) nw
          (fun x hx kk hxk => List.mem_filterMap.mpr ⟨x, hx, hxk⟩) [] ?_
        intro kv h
        cases h
      have := hsub kv' hkv'
      rw [hkeq] at this
      exact this
    exact List.mem_map.mpr ⟨(k, r), hupd, rfl⟩
  · intro l r
    rfl

/-- C8 witness: with a parse table rejecting everything, a bad-date record
persisted in a one-record shard survives an upsert of an unrelated url,
the watermark fold skips it, the stats still count it, and a bad-date
record never appears in any group. -/
theorem C8_bad_date_handling_witness :
    latestInRecords (fun _ => none) [recNoDate] none = latestInRecords (fun _ => none) [] none
    ∧ recNoDate ∈ mergeShard [recNoDate] [recA]
    ∧ (calculate_pr_stats_from_metadata [recNoDate]).total_prs = 1 := by
  refine ⟨(C8_bad_date_handling (fun _ => none)).2.1 recNoDate [] none (by decide),
    (C8_bad_date_handling (fun _ => none)).2.2.1 [recNoDate] [recA] recNoDate "uX"
      (by decide) ⟨by decide, by decide⟩ (by decide) (by decide) (by decide),
    (C8_bad_date_handling (fun _ => none)).2.2.2 [] recNoDate⟩

/-! ## C9: watermark scan error handling -/

lemma foldl_download_skip (parse : ParseFn) (dl : String → Except Unit (List MetaRec))
    (f : String) (hf : dl f = .error ()) (L1 L2 : List String) (acc : Option PyDateTime) :
    List.foldl
      (fun acc f =>
        match dl f with
        | .error _ => acc
        | .ok metadata => latestInRecords parse metadata acc)
      acc (L1 ++ f :: L2)
    = List.foldl
      (fun acc f =>
        match dl f with
        | .error _ => acc
        | .ok metadata => latestInRecords parse metadata acc)
      acc (L1 ++ L2) := by
  rw [List.foldl_append, List.foldl_append, List.foldl_cons, hf]

lemma foldl_download_all_errors (parse : ParseFn)
    (dl : String → Except Unit (List MetaRec)) (L : List String)
    (h : ∀ f ∈ L, dl f = .error ()) (acc : Option PyDateTime) :
    List.foldl
      (fun acc f =>
        match dl f with
        | .error _ => acc
        | .ok metadata => latestInRecords parse metadata acc)
      acc L = acc := by
  induction L generalizing acc with
  | nil => rfl
  | cons f rest ih =>
    rw [List.foldl_cons, h f (List.mem_cons_self _ _)]
    exact ih (fun x hx => h x (List.mem_cons_of_mem _ hx)) acc

/-- C9 (counterexample): the claim "any failure while listing, downloading,
or parsing … yields the absent watermark (None)" fails: with two shard
files of which the first fails to download and the second holds a
parseable record, the function returns that record's date, not `None`. -/
theorem C9_partial_failure_counterexample :
    dlC "agentx/2024.06.01.jsonl" = .error ()
    ∧ get_latest_pr_date_for_agent parseC "agentx"
        (.ok ["agentx/2024.06.01.jsonl", "agentx/2024.06.02.jsonl"]) dlC
        = some ⟨1717200000000000, 2024, 6, 1⟩ := by
  exact ⟨rfl, by decide⟩

/-- C9 (amended): `get_latest_pr_date_for_agent` never propagates a
collaborator failure: a listing failure yields `None`; a file whose
download fails is skipped, leaving the result of the remaining files; a
record that fails to parse is skipped; and when every matching file fails
to download the result is `None` — in each case indistinguishable from an
identity with less (or no) history. -/
theorem C9_error_containment (parse : ParseFn) (agent_identifier : String)
    (dl : String → Except Unit (List MetaRec)) :
    (get_latest_pr_date_for_agent parse agent_identifier (.error ()) dl = none)
    ∧ (∀ (fs1 fs2 : List String) (f : String), dl f = .error () →
        get_latest_pr_date_for_agent parse agent_identifier (.ok (fs1 ++ f :: fs2)) dl
          = get_latest_pr_date_for_agent parse agent_identifier (.ok (fs1 ++ fs2)) dl)
    ∧ (∀ (r : MetaRec) (recs : List MetaRec) (acc : Option PyDateTime),
        badDate parse r = true →
        latestInRecords parse (r :: recs) acc = latestInRecords parse recs acc)
    ∧ (∀ fs : List String, (∀ f ∈ fs, dl f = .error ()) →
        get_latest_pr_date_for_agent parse agent_identifier (.ok fs) dl = none) := by
  refine ⟨rfl, ?_, ?_, ?_⟩
  · intro fs1 fs2 f hf
    rw [get_latest_pr_date_for_agent, get_latest_pr_date_for_agent,
      List.filter_append, List.filter_cons, List.filter_append]
    cases hpred : (pyStartsWith f (agent_identifier ++ "/") && pyEndsWith f ".jsonl") with
    | false => rfl
    | true =>
      generalize List.filter (fun f => pyStartsWith f (agent_identifier ++ "/") && pyEndsWith f ".jsonl") fs1 = A
      generalize List.filter (fun f => pyStartsWith f (agent_identifier ++ "/") && pyEndsWith f ".jsonl") fs2 = B
      rw [if_pos (show (true = true) from rfl)]
      by_cases hrest : A ++ B = []
      · rcases List.append_eq_nil.mp hrest with ⟨h1, h2⟩
        subst h1
        subst h2
        rw [if_neg (show ¬([] ++ f :: [] = ([] : List String)) by simp), if_pos hrest]
        show (List.foldl _ none ([] ++ f :: [])) = none
        rw [foldl_download_skip parse dl f hf [] []]
        rfl
      · rw [if_neg (show ¬(A ++ f :: B = []) by simp), if_neg hrest]
        exact foldl_download_skip parse dl f hf A B none
  · exact fun r recs acc h => latestInRecords_skip parse r recs acc h
  · intro fs hall
    rw [get_latest_pr_date_for_agent]
    split
    · rfl
    · refine foldl_download_all_errors parse dl _ (fun f hf => hall f ?_) none
      exact List.mem_of_mem_filter hf

/-- C9 witness: with every download failing, the watermark for two matching
files is `None`; prepending a failing file in front of a working store
leaves the result unchanged. -/
theorem C9_error_containment_witness :
    get_latest_pr_date_for_agent parseC "agentx"
        (.ok ["agentx/2024.06.01.jsonl", "agentx/2024.06.03.jsonl"]) (fun _ => .error ())
      = none
    ∧ get_latest_pr_date_for_agent parseC "agentx"
        (.ok (["agentx/2024.06.01.jsonl"] ++ "agentx/2024.06.01.jsonl" :: ["agentx/2024.06.02.jsonl"])) dlC
      = get_latest_pr_date_for_agent parseC "agentx"
        (.ok (["agentx/2024.06.01.jsonl"] ++ ["agentx/2024.06.02.jsonl"])) dlC :=
  ⟨(C9_error_containment parseC "agentx" (fun _ => .error ())).2.2.2
      ["agentx/2024.06.01.jsonl", "agentx/2024.06.03.jsonl"] (fun _ _ => rfl),
   (C9_error_containment parseC "agentx" dlC).2.1
      ["agentx/2024.06.01.jsonl"] ["agentx/2024.06.02.jsonl"]
      "agentx/2024.06.01.jsonl" rfl⟩

/-! ## Partitioner lemmas (for C1, C2) -/

lemma containsKey_iff_mem (k : Nat) (m : PRMap) :
    containsKey k m = true ↔ k ∈ m.map Prod.fst := by
  induction m with
  | nil => simp [containsKey]
  | cons kv rest ih =>
    rw [containsKey]
    simp only [Bool.or_eq_true, beq_iff_eq, ih, List.map_cons, List.mem_cons]
    exact or_congr eq_comm Iff.rfl

lemma containsKey_append (k : Nat) (m1 m2 : PRMap) :
    containsKey k (m1 ++ m2) = (containsKey k m1 || containsKey k m2) := by
  induction m1 with
  | nil => simp [containsKey]
  | cons kv rest ih =>
    rw [List.cons_append, containsKey, containsKey, ih, Bool.or_assoc]

lemma insertHits_extends (hits : List SearchHit) :
    ∀ (m : PRMap) (c : Nat), ∃ f : PRMap,
      insertHits m c hits = (m ++ f, c + f.length)
      ∧ (∀ kv ∈ f, containsKey kv.1 m = false)
      ∧ (f.map Prod.fst).Nodup := by
  induction hits with
  | nil => exact fun m c => ⟨[], by simp [insertHits], by simp, by simp⟩
  | cons pr rest ih =>
    intro m c
    cases hid : pr.id with
    | none =>
      rcases ih m c with ⟨f, heq, hfresh, hnd⟩
      exact ⟨f, by rw [insertHits, hid]; exact heq, hfresh, hnd⟩
    | some i =>
      by_cases hcond : i ≠ 0 ∧ containsKey i m = false
      · rcases ih (m ++ [(i, pr)]) (c + 1) with ⟨f, heq, hfresh, hnd⟩
        refine ⟨(i, pr) :: f, ?_, ?_, ?_⟩
        · have hstep : insertHits m c (pr :: rest) = insertHits (m ++ [(i, pr)]) (c + 1) rest := by
            simp only [insertHits, hid, if_pos hcond]
          rw [hstep, heq, List.append_assoc]
          have hlen : c + 1 + f.length = c + ((i, pr) :: f).length := by
            rw [List.length_cons]
            omega
          rw [hlen]
          rfl
        · intro kv hkv
          rcases List.mem_cons.mp hkv with h1 | h1
          · subst h1
            exact hcond.2
          · have := hfresh kv h1
            rw [containsKey_append, Bool.or_eq_false_iff] at this
            exact this.1
        · rw [List.map_cons, List.nodup_cons]
          refine ⟨fun hmem => ?_, hnd⟩
          have : containsKey i (m ++ [(i, pr)]) = true := by
            rw [containsKey_append]
            refine Bool.or_eq_true_iff.mpr (Or.inr ?_)
            simp [containsKey]
          rcases List.mem_map.mp hmem with ⟨kv, hkv, hfst⟩
          have hf := hfresh kv hkv
          rw [containsKey_append, Bool.or_eq_false_iff] at hf
          have : containsKey kv.1 [(i, pr)] = true := by
            rw [containsKey]
            simp [hfst]
          rw [this] at hf
          exact absurd hf.2 (by decide)
      · rcases ih m c with ⟨f, heq, hfresh, hnd⟩
        exact ⟨f, by simp only [insertHits, hid, if_neg hcond]; exact heq, hfresh, hnd⟩

lemma extends_nodup {m f : PRMap}
    (hfresh : ∀ kv ∈ f, containsKey kv.1 m = false)
    (hndf : (f.map Prod.fst).Nodup) (hndm : (m.map Prod.fst).Nodup) :
    ((m ++ f).map Prod.fst).Nodup := by
  rw [List.map_append, List.nodup_append]
  refine ⟨hndm, hndf, fun k hkm hkf => ?_⟩
  rcases List.mem_map.mp hkf with ⟨kv, hkv, hfst⟩
  have := hfresh kv hkv
  rw [hfst, (containsKey_iff_mem k m).mpr hkm] at this
  cases this

lemma fetchPages_extends (P : Provider) (q : String) (sDay eDay : ℤ)
    (dbg : Option Nat) :
    ∀ (left page : Nat) (m : PRMap) (c : Nat) (m' : PRMap) (c' : Nat),
      (fetchPages P q sDay eDay dbg left page m c = .done m' c'
        ∨ fetchPages P q sDay eDay dbg left page m c = .split m' c') →
      ∃ f : PRMap, m' = m ++ f ∧ c' = c + f.length
        ∧ (∀ kv ∈ f, containsKey kv.1 m = false)
        ∧ (f.map Prod.fst).Nodup := by
  intro left
  induction left with
  | zero =>
    intro page m c m' c' h
    have h0 : fetchPages P q sDay eDay dbg 0 page m c = LoopResult.done m c := rfl
    rw [h0] at h
    rcases h with h | h
    · injection h with h1 h2
      exact ⟨[], by simp [h1], by simp [h2], by simp, by simp⟩
    · cases h
  | succ left ih =>
    intro page m c m' c' h
    rw [fetchPages] at h
    split at h
    · rcases h with h | h
      · injection h with h1 h2
        exact ⟨[], by simp [h1], by simp [h2], by simp, by simp⟩
      · cases h
    · split at h
      · rcases h with h | h
        · injection h with h1 h2
          exact ⟨[], by simp [h1], by simp [h2], by simp, by simp⟩
        · cases h
      · split at h
        · rcases h with h | h
          · injection h with h1 h2
            exact ⟨[], by simp [h1], by simp [h2], by simp, by simp⟩
          · cases h
        · split at h
          next m2 c2 hins =>
            rcases insertHits_extends _ m c with ⟨f0, heq, hfresh0, hnd0⟩
            rw [heq] at hins
            injection hins with hm2 hc2
            subst hm2
            subst hc2
            split at h
            · rcases h with h | h
              · cases h
              · injection h with h1 h2
                exact ⟨f0, h1.symm, h2.symm, hfresh0, hnd0⟩
            · split at h
              · rcases h with h | h
                · injection h with h1 h2
                  exact ⟨f0, h1.symm, h2.symm, hfresh0, hnd0⟩
                · cases h
              · rcases ih (page + 1) (m ++ f0) (c + f0.length) m' c' h with
                  ⟨f1, hm1, hc1, hfresh1, hnd1⟩
                refine ⟨f0 ++ f1, by rw [hm1, List.append_assoc], ?_, ?_, ?_⟩
                · rw [hc1, List.length_append]
                  omega
                · intro kv hkv
                  rcases List.mem_append.mp hkv with h1 | h1
                  · exact hfresh0 kv h1
                  · have := hfresh1 kv h1
                    rw [containsKey_append, Bool.or_eq_false_iff] at this
                    exact this.1
                · refine extends_nodup ?_ hnd1 hnd0
                  intro kv hkv
                  have := hfresh1 kv hkv
                  rw [containsKey_append, Bool.or_eq_false_iff] at this
                  exact this.2

lemma fetchPages_left_irrelevant (P : Provider) (q : String) (sDay eDay : ℤ)
    (dbg : Option Nat) :
    ∀ (left left' page : Nat) (m : PRMap) (c : Nat), page ≤ 10 →
      10 < left + page → 10 < left' + page →
      fetchPages P q sDay eDay dbg left page m c
        = fetchPages P q sDay eDay dbg left' page m c := by
  intro left
  induction left with
  | zero =>
    intro left' page m c hp hl hl'
    omega
  | succ left ih =>
    intro left' page m c hp hl hl'
    cases left' with
    | zero => omega
    | succ left' =>
      rw [fetchPages, fetchPages]
      split
      · rfl
      · split
        · rfl
        · split
          · rfl
          · split
            next m2 c2 _hins =>
              split
              · rfl
              · split
                · rfl
                · next hsplit hshort =>
                    exact ih left' (page + 1) m2 c2 (by omega) (by omega) (by omega)

lemma fetchPages_split_inversion (P : Provider) (q : String) (sDay eDay : ℤ)
    (dbg : Option Nat) :
    ∀ (left page : Nat) (m : PRMap) (c : Nat) (m' : PRMap) (c' : Nat),
      fetchPages P q sDay eDay dbg left page m c = .split m' c' →
      ∃ total : Nat, ∃ items : List SearchHit,
        P.search q sDay eDay 10 = some (total, items) ∧ 1000 < total ∧ items ≠ [] := by
  intro left
  induction left with
  | zero =>
    intro page m c m' c' h
    have h0 : fetchPages P q sDay eDay dbg 0 page m c = LoopResult.done m c := rfl
    rw [h0] at h
    cases h
  | succ left ih =>
    intro page m c m' c' h
    rw [fetchPages] at h
    split at h
    · cases h
    · split at h
      · cases h
      next total items hsearch =>
        split at h
        · cases h
        next hempty =>
          split at h
          next m2 c2 _hins =>
            split at h
            next hcond =>
              refine ⟨total, items, ?_, hcond.1, hempty⟩
              rw [← hcond.2]
              exact hsearch
            · split at h
              · cases h
              · exact ih (page + 1) m2 c2 m' c' h

lemma fetchPages_overflow_split (P : Provider) (q : String) (sDay eDay : ℤ)
    (dbg : Option Nat) (left : Nat) (m : PRMap) (c : Nat) (total : Nat)
    (items : List SearchHit) (hdbg : dbgReached dbg c = false)
    (hsearch : P.search q sDay eDay 10 = some (total, items))
    (hne : items ≠ []) (hover : 1000 < total) :
    fetchPages P q sDay eDay dbg (left + 1) 10 m c
      = .split (insertHits m c items).1 (insertHits m c items).2 := by
  rw [fetchPages]
  split
  · next h => rw [hdbg] at h; cases h
  · split
    · next h => rw [hsearch] at h; cases h
    · next total' items' h =>
        rw [hsearch] at h
        injection h with h1
        injection h1 with ht hi
        subst ht
        subst hi
        split
        · next h => exact absurd h hne
        · split
          next m2 c2 hins =>
            rw [hins]
            split
            · rfl
            · next h => exact absurd ⟨hover, rfl⟩ h

lemma fetch_extends (P : Provider) (q : String) (dbg : Option Nat) :
    ∀ (fuel : Nat) (s e : ℤ) (m : PRMap) (m' : PRMap) (c : Nat),
      fetch_prs_with_time_partition P q s e m dbg fuel = some (m', c) →
      ∃ f : PRMap, m' = m ++ f
        ∧ (∀ kv ∈ f, containsKey kv.1 m = false)
        ∧ ((m.map Prod.fst).Nodup → (m'.map Prod.fst).Nodup)
        ∧ c ≤ f.length := by
  intro fuel
  induction fuel with
  | zero =>
    intro s e m m' c h
    cases h
  | succ fuel ih =>
    intro s e m m' c h
    rw [fetch_prs_with_time_partition] at h
    split at h
    next m0 c0 hdone =>
      injection h with h1
      injection h1 with hm hc
      rcases fetchPages_extends P q (dayOfMicros s) (dayOfMicros e) dbg 10 1 m 0 m0 c0
          (Or.inl hdone) with ⟨f, hf, hcf, hfresh, hnd⟩
      subst hm
      subst hc
      exact ⟨f, hf, hfresh,
        fun hm0 => hf ▸ extends_nodup hfresh hnd hm0, by omega⟩
    next m0 c0 hsplit =>
      rcases fetchPages_extends P q (dayOfMicros s) (dayOfMicros e) dbg 10 1 m 0 m0 c0
          (Or.inr hsplit) with ⟨f0, hf0, _hcf0, hfresh0, hnd0⟩
      dsimp only at h
      split at h
      · cases h
      next m1 c1 hrec1 =>
        split at h
        · cases h
        next m2 c2 hrec2 =>
          injection h with h1
          injection h1 with hm hc
          rcases ih s _ m0 m1 c1 hrec1 with ⟨f1, hf1, hfresh1, hnd1, hc1⟩
          rcases ih _ e m1 m2 c2 hrec2 with ⟨f2, hf2, hfresh2, hnd2, hc2⟩
          subst hm
          subst hc
          refine ⟨f0 ++ f1 ++ f2, ?_, ?_, ?_, ?_⟩
          · simp [hf2, hf1, hf0, List.append_assoc]
          · intro kv hkv
            rcases List.mem_append.mp hkv with h01 | h2
            · rcases List.mem_append.mp h01 with h0 | h1
              · exact hfresh0 kv h0
              · have := hfresh1 kv h1
                rw [hf0, containsKey_append, Bool.or_eq_false_iff] at this
                exact this.1
            · have := hfresh2 kv h2
              rw [hf1, hf0, containsKey_append, containsKey_append,
                Bool.or_eq_false_iff, Bool.or_eq_false_iff] at this
              exact this.1.1
          · intro hm0
            refine hnd2 (hnd1 ?_)
            rw [hf0]
            exact extends_nodup hfresh0 hnd0 hm0
          · have hlf1 : m1.length = m0.length + f1.length := by
              rw [hf1, List.length_append]
            have hlf2 : m2.length = m1.length + f2.length := by
              rw [hf2, List.length_append]
            rw [List.length_append, List.length_append]
            omega

lemma fdiv_day (t : ℤ) : Int.fdiv t 86400000000 = t / 86400000000 :=
  Int.fdiv_eq_ediv t (by norm_num)

lemma tdHalf_bounds (d : ℤ) (h : 0 ≤ d) : 0 ≤ tdHalf d ∧ tdHalf d ≤ d := by
  rw [tdHalf, Int.fdiv_eq_ediv d (by norm_num)]
  split
  · omega
  · split <;> omega

lemma day_cover (s e : ℤ) (h : s ≤ e) :
    (∀ d : ℤ, (dayOfMicros s ≤ d ∧ d ≤ dayOfMicros e) ↔
      ((dayOfMicros s ≤ d ∧ d ≤ dayOfMicros (s + tdHalf (e - s)))
        ∨ (dayOfMicros (s + tdHalf (e - s) + usPerDay) ≤ d
            ∧ d ≤ dayOfMicros e)))
    ∧ dayOfMicros (s + tdHalf (e - s)) < dayOfMicros (s + tdHalf (e - s) + usPerDay) := by
  have hb := tdHalf_bounds (e - s) (by omega)
  simp only [dayOfMicros, usPerDay, fdiv_day]
  constructor
  · intro d
    omega
  · omega

lemma fetch_split_eq (P : Provider) (q : String) (s e : ℤ) (m : PRMap)
    (dbg : Option Nat) (fuel : Nat) (m' : PRMap) (c' : Nat)
    (h : fetchPages P q (dayOfMicros s) (dayOfMicros e) dbg 10 1 m 0 = .split m' c') :
    fetch_prs_with_time_partition P q s e m dbg (fuel + 1)
      = (match fetch_prs_with_time_partition P q s (s + tdHalf (e - s)) m' dbg fuel with
         | none => none
         | some (m1, c1) =>
           match fetch_prs_with_time_partition P q (s + tdHalf (e - s) + usPerDay) e m1 dbg fuel with
           | none => none
           | some (m2, c2) => some (m2, c1 + c2)) := by
  rw [fetch_prs_with_time_partition, h]

/-! ## The 1500-item scenario (for C1) -/

lemma range'_drop (k : Nat) : ∀ (a n : Nat),
    (List.range' a n).drop k = List.range' (a + k) (n - k) := by
  induction k with
  | zero => intro a n; simp
  | succ k ih =>
    intro a n
    cases n with
    | zero => simp
    | succ m =>
      rw [List.range'_succ, List.drop_succ_cons, ih (a + 1) m]
      congr 1 <;> omega

lemma range'_take (k : Nat) : ∀ (a n : Nat),
    (List.range' a n).take k = List.range' a (min k n) := by
  induction k with
  | zero => intro a n; simp
  | succ k ih =>
    intro a n
    cases n with
    | zero => simp
    | succ m =>
      rw [List.range'_succ, List.take_succ_cons, ih (a + 1) m]
      rw [show min (k + 1) (m + 1) = min k m + 1 from by omega, List.range'_succ]

lemma mhits_drop (a n k : Nat) : (mhits a n).drop k = mhits (a + k) (n - k) := by
  rw [mhits, mhits, ← List.map_drop, range'_drop]

lemma mhits_take (a n k : Nat) : (mhits a n).take k = mhits a (min k n) := by
  rw [mhits, mhits, ← List.map_take, range'_take]

lemma mhits_length (a n : Nat) : (mhits a n).length = n := by
  rw [mhits, List.length_map, List.length_range']

lemma mhits_append (a n m : Nat) : mhits a (n + m) = mhits a n ++ mhits (a + n) m := by
  rw [mhits, mhits, mhits, ← List.map_append]
  congr 1
  have h := (List.range'_append a n m 1).symm
  simp only [one_mul] at h
  rw [Nat.add_comm n m]
  exact h

lemma keyed_append (a n m : Nat) : keyed a (n + m) = keyed a n ++ keyed (a + n) m := by
  rw [keyed, keyed, keyed, ← List.map_append]
  congr 1
  have h := (List.range'_append a n m 1).symm
  simp only [one_mul] at h
  rw [Nat.add_comm n m]
  exact h

lemma keyed_one (a : Nat) : keyed a 1 = [(a, evenHit a)] := by
  simp [keyed]

lemma containsKey_keyed (i a n : Nat) :
    containsKey i (keyed a n) = true ↔ a ≤ i ∧ i < a + n := by
  rw [containsKey_iff_mem, keyed, List.map_map]
  have : (Prod.fst ∘ fun i => (i, evenHit i)) = id := rfl
  rw [this, List.map_id, List.mem_range'_1]

lemma insert_fresh (j : Nat) : ∀ (N c : Nat),
    insertHits (keyed 1 N) c (mhits (N + 1) j) = (keyed 1 (N + j), c + j) := by
  induction j with
  | zero => intro N c; simp [mhits, insertHits]
  | succ j ih =>
    intro N c
    have hm : mhits (N + 1) (j + 1) = evenHit (N + 1) :: mhits (N + 1 + 1) j := by
      rw [mhits, List.range'_succ, List.map_cons, mhits]
    have hfresh : containsKey (N + 1) (keyed 1 N) = false := by
      rw [Bool.eq_false_iff]
      intro hc
      have := (containsKey_keyed (N + 1) 1 N).mp hc
      omega
    rw [hm, insertHits]
    have hid : (evenHit (N + 1)).id = some (N + 1) := rfl
    simp only [hid]
    rw [if_pos ⟨Nat.succ_ne_zero N, hfresh⟩]
    have hkey : keyed 1 N ++ [(N + 1, evenHit (N + 1))] = keyed 1 (N + 1) := by
      rw [keyed_append 1 N 1, keyed_one, show 1 + N = N + 1 from by omega]
    rw [hkey]
    have := ih (N + 1) (c + 1)
    rw [show N + 1 + 1 = (N + 1) + 1 from rfl] at this
    rw [this]
    congr 1
    · congr 1
      omega
    · omega

lemma insert_dup (j : Nat) : ∀ (a N c : Nat), 1 ≤ a → a + j ≤ N + 1 →
    insertHits (keyed 1 N) c (mhits a j) = (keyed 1 N, c) := by
  induction j with
  | zero => intro a N c _ _; simp [mhits, insertHits]
  | succ j ih =>
    intro a N c ha haj
    have hm : mhits a (j + 1) = evenHit a :: mhits (a + 1) j := by
      rw [mhits, List.range'_succ, List.map_cons, mhits]
    have hdup : containsKey a (keyed 1 N) = true :=
      (containsKey_keyed a 1 N).mpr (by omega)
    rw [hm, insertHits]
    have hid : (evenHit a).id = some a := rfl
    simp only [hid]
    rw [if_neg (by rw [hdup]; simp)]
    exact ih (a + 1) N c (by omega) (by omega)

lemma insertHits_append_hits (xs ys : List SearchHit) : ∀ (m : PRMap) (c : Nat),
    insertHits m c (xs ++ ys)
      = insertHits (insertHits m c xs).1 (insertHits m c xs).2 ys := by
  induction xs with
  | nil => intro m c; rfl
  | cons pr rest ih =>
    intro m c
    rw [List.cons_append]
    cases hid : pr.id with
    | none =>
      simp only [insertHits, hid]
      exact ih m c
    | some i =>
      by_cases hcond : i ≠ 0 ∧ containsKey i m = false
      · simp only [insertHits, hid, if_pos hcond]
        exact ih (m ++ [(i, pr)]) (c + 1)
      · simp only [insertHits, hid, if_neg hcond]
        exact ih m c

lemma evenMatches_eq (s e : ℤ) :
    evenMatches s e = ((List.range' 1 1500).filter
      (fun i => decide (s ≤ evenDay i ∧ evenDay i ≤ e))).map evenHit := by
  rw [evenMatches, evenHits, mhits, List.filter_map]
  refine congrArg (List.map evenHit) (List.filter_congr ?_)
  intro i hi
  rfl

lemma range_split : List.range' 1 1500 = List.range' 1 750 ++ List.range' 751 750 := by
  simpa using (List.range'_append 1 750 750 1).symm

lemma evenMatches_01 : evenMatches 0 1 = mhits 1 1500 := by
  rw [evenMatches_eq, mhits]
  refine congrArg (List.map evenHit) ?_
  rw [List.filter_eq_self]
  intro i hi
  rw [evenDay]
  split <;> simp

lemma evenMatches_00 : evenMatches 0 0 = mhits 1 750 := by
  rw [evenMatches_eq, range_split, List.filter_append]
  have h1 : (List.range' 1 750).filter (fun i => decide (0 ≤ evenDay i ∧ evenDay i ≤ 0))
      = List.range' 1 750 := by
    rw [List.filter_eq_self]
    intro i hi
    rw [List.mem_range'_1] at hi
    rw [evenDay, if_pos (by omega)]
    simp
  have h2 : (List.range' 751 750).filter (fun i => decide (0 ≤ evenDay i ∧ evenDay i ≤ 0))
      = [] := by
    rw [List.filter_eq_nil_iff]
    intro i hi
    rw [List.mem_range'_1] at hi
    rw [evenDay, if_neg (by omega)]
    simp
  rw [h1, h2, List.append_nil, mhits]

lemma evenMatches_11 : evenMatches 1 1 = mhits 751 750 := by
  rw [evenMatches_eq, range_split, List.filter_append]
  have h1 : (List.range' 1 750).filter (fun i => decide (1 ≤ evenDay i ∧ evenDay i ≤ 1))
      = [] := by
    rw [List.filter_eq_nil_iff]
    intro i hi
    rw [List.mem_range'_1] at hi
    rw [evenDay, if_pos (by omega)]
    simp
  have h2 : (List.range' 751 750).filter (fun i => decide (1 ≤ evenDay i ∧ evenDay i ≤ 1))
      = List.range' 751 750 := by
    rw [List.filter_eq_self]
    intro i hi
    rw [List.mem_range'_1] at hi
    rw [evenDay, if_neg (by omega)]
    simp
  rw [h1, h2, List.nil_append, mhits]

lemma evenPages_continue (sD eD : ℤ) (left page : Nat) (m m2 : PRMap) (c c2 : Nat)
    (hins : insertHits m c (((evenMatches sD eD).drop ((page - 1) * 100)).take 100) = (m2, c2))
    (hlen : (((evenMatches sD eD).drop ((page - 1) * 100)).take 100).length = 100)
    (hpage : page < 10) :
    fetchPages evenProv "q" sD eD none (left + 1) page m c
      = fetchPages evenProv "q" sD eD none left (page + 1) m2 c2 := by
  have hs : evenProv.search "q" sD eD page
      = some ((evenMatches sD eD).length,
          ((evenMatches sD eD).drop ((page - 1) * 100)).take 100) := rfl
  rw [fetchPages]
  split
  · next hdbg => exact absurd hdbg (by simp [dbgReached])
  · split
    · next hnone =>
        rw [hs] at hnone
        cases hnone
    · next total items hsearch =>
        rw [hs] at hsearch
        injection hsearch with h1
        injection h1 with ht hi
        subst ht
        subst hi
        split
        · next hempty =>
            rw [hempty] at hlen
            cases hlen
        · split
          next m2' c2' hins' =>
            rw [hins] at hins'
            injection hins' with hm2 hc2
            subst hm2
            subst hc2
            rw [if_neg (by omega), if_neg (by omega)]

lemma evenPages_done (sD eD : ℤ) (left page : Nat) (m m2 : PRMap) (c c2 : Nat)
    (hins : insertHits m c (((evenMatches sD eD).drop ((page - 1) * 100)).take 100) = (m2, c2))
    (hne : ((evenMatches sD eD).drop ((page - 1) * 100)).take 100 ≠ [])
    (hshort : (((evenMatches sD eD).drop ((page - 1) * 100)).take 100).length < 100 ∨ 10 ≤ page)
    (hnosplit : ¬((evenMatches sD eD).length > 1000 ∧ page = 10)) :
    fetchPages evenProv "q" sD eD none (left + 1) page m c = .done m2 c2 := by
  have hs : evenProv.search "q" sD eD page
      = some ((evenMatches sD eD).length,
          ((evenMatches sD eD).drop ((page - 1) * 100)).take 100) := rfl
  rw [fetchPages]
  split
  · next hdbg => exact absurd hdbg (by simp [dbgReached])
  · split
    · next hnone =>
        rw [hs] at hnone
        cases hnone
    · next total items hsearch =>
        rw [hs] at hsearch
        injection hsearch with h1
        injection h1 with ht hi
        subst ht
        subst hi
        split
        · next hempty => exact absurd hempty hne
        · split
          next m2' c2' hins' =>
            rw [hins] at hins'
            injection hins' with hm2 hc2
            subst hm2
            subst hc2
            rfl
lemma evenPages_split (sD eD : ℤ) (left page : Nat) (m m2 : PRMap) (c c2 : Nat)
    (hins : insertHits m c (((evenMatches sD eD).drop ((page - 1) * 100)).take 100) = (m2, c2))
    (hne : ((evenMatches sD eD).drop ((page - 1) * 100)).take 100 ≠ [])
    (hover : (evenMatches sD eD).length > 1000 ∧ page = 10) :
    fetchPages evenProv "q" sD eD none (left + 1) page m c = .split m2 c2 := by
  have hs : evenProv.search "q" sD eD page
      = some ((evenMatches sD eD).length,
          ((evenMatches sD eD).drop ((page - 1) * 100)).take 100) := rfl
  rw [fetchPages]
  split
  · next hdbg => exact absurd hdbg (by simp [dbgReached])
  · split
    · next hnone =>
        rw [hs] at hnone
        cases hnone
    · next total items hsearch =>
        rw [hs] at hsearch
        injection hsearch with h1
        injection h1 with ht hi
        subst ht
        subst hi
        split
        · next hempty => exact absurd hempty hne
        · split
          next m2' c2' hins' =>
            rw [hins] at hins'
            injection hins' with hm2 hc2
            subst hm2
            subst hc2
            rfl

lemma parent_slice (k : Nat) (hk : k + 100 ≤ 1500) :
    ((evenMatches 0 1).drop k).take 100 = mhits (k + 1) 100 := by
  rw [evenMatches_01, mhits_drop, mhits_take]
  congr 1
  · omega
  · omega

lemma keyed_zero : keyed 1 0 = ([] : PRMap) := rfl

lemma parent_run :
    fetchPages evenProv "q" 0 1 none 10 1 [] 0 = .split (keyed 1 1000) 1000 := by
  have len01 : (evenMatches 0 1).length = 1500 := by rw [evenMatches_01, mhits_length]
  have step : ∀ (left page : Nat), 1 ≤ page → page < 10 →
      fetchPages evenProv "q" 0 1 none (left + 1) page
          (keyed 1 ((page - 1) * 100)) ((page - 1) * 100)
        = fetchPages evenProv "q" 0 1 none left (page + 1)
          (keyed 1 (page * 100)) (page * 100) := by
    intro left page h1 h10
    have hslice : ((evenMatches 0 1).drop ((page - 1) * 100)).take 100
        = mhits ((page - 1) * 100 + 1) 100 := parent_slice _ (by omega)
    refine evenPages_continue 0 1 left page _ _ _ _ ?_ ?_ h10
    · rw [hslice, insert_fresh]
      have h100 : (page - 1) * 100 + 100 = page * 100 := by omega
      rw [h100]
    · rw [hslice, mhits_length]
  have e1 := step 9 1 (by omega) (by omega)
  have e2 := step 8 2 (by omega) (by omega)
  have e3 := step 7 3 (by omega) (by omega)
  have e4 := step 6 4 (by omega) (by omega)
  have e5 := step 5 5 (by omega) (by omega)
  have e6 := step 4 6 (by omega) (by omega)
  have e7 := step 3 7 (by omega) (by omega)
  have e8 := step 2 8 (by omega) (by omega)
  have e9 := step 1 9 (by omega) (by omega)
  norm_num at e1 e2 e3 e4 e5 e6 e7 e8 e9
  rw [keyed_zero] at e1
  rw [e1, e2, e3, e4, e5, e6, e7, e8, e9]
  have hslice10 : ((evenMatches 0 1).drop ((10 - 1) * 100)).take 100 = mhits 901 100 := by
    have := parent_slice 900 (by omega)
    norm_num at this ⊢
    exact this
  refine evenPages_split 0 1 0 10 _ _ _ _ ?_ ?_ ?_
  · rw [hslice10]
    have := insert_fresh 100 900 900
    norm_num at this
    exact this
  · rw [hslice10]
    intro hnil
    have := congrArg List.length hnil
    rw [mhits_length] at this
    cases this
  · rw [len01]
    exact ⟨by omega, rfl⟩

lemma child1_slice (k : Nat) (hk : k + 100 ≤ 750) :
    ((evenMatches 0 0).drop k).take 100 = mhits (k + 1) 100 := by
  rw [evenMatches_00, mhits_drop, mhits_take]
  congr 1
  · omega
  · omega

lemma child1_run :
    fetchPages evenProv "q" 0 0 none 10 1 (keyed 1 1000) 0 = .done (keyed 1 1000) 0 := by
  have len00 : (evenMatches 0 0).length = 750 := by rw [evenMatches_00, mhits_length]
  have step : ∀ (left page : Nat), 1 ≤ page → page ≤ 7 →
      fetchPages evenProv "q" 0 0 none (left + 1) page (keyed 1 1000) 0
        = fetchPages evenProv "q" 0 0 none left (page + 1) (keyed 1 1000) 0 := by
    intro left page h1 h7
    have hslice : ((evenMatches 0 0).drop ((page - 1) * 100)).take 100
        = mhits ((page - 1) * 100 + 1) 100 := child1_slice _ (by omega)
    refine evenPages_continue 0 0 left page _ _ _ _ ?_ ?_ (by omega)
    · rw [hslice]
      exact insert_dup 100 _ 1000 0 (by omega) (by omega)
    · rw [hslice, mhits_length]
  have e1 := step 9 1 (by omega) (by omega)
  have e2 := step 8 2 (by omega) (by omega)
  have e3 := step 7 3 (by omega) (by omega)
  have e4 := step 6 4 (by omega) (by omega)
  have e5 := step 5 5 (by omega) (by omega)
  have e6 := step 4 6 (by omega) (by omega)
  have e7 := step 3 7 (by omega) (by omega)
  norm_num at e1 e2 e3 e4 e5 e6 e7
  rw [e1, e2, e3, e4, e5, e6, e7]
  have hslice8 : ((evenMatches 0 0).drop ((8 - 1) * 100)).take 100 = mhits 701 50 := by
    rw [evenMatches_00, mhits_drop, mhits_take]
    norm_num
  refine evenPages_done 0 0 2 8 _ _ _ _ ?_ ?_ ?_ ?_
  · rw [hslice8]
    exact insert_dup 50 701 1000 0 (by omega) (by omega)
  · rw [hslice8]
    intro hnil
    have := congrArg List.length hnil
    rw [mhits_length] at this
    cases this
  · rw [hslice8, mhits_length]
    exact Or.inl (by omega)
  · rw [len00]
    intro hcon
    omega

lemma child2_slice (k : Nat) (hk : k + 100 ≤ 750) :
    ((evenMatches 1 1).drop k).take 100 = mhits (751 + k) 100 := by
  rw [evenMatches_11, mhits_drop, mhits_take]
  congr 1
  omega

lemma child2_run :
    fetchPages evenProv "q" 1 1 none 10 1 (keyed 1 1000) 0 = .done (keyed 1 1500) 500 := by
  have len11 : (evenMatches 1 1).length = 750 := by rw [evenMatches_11, mhits_length]
  have hs1 : ((evenMatches 1 1).drop ((1 - 1) * 100)).take 100 = mhits 751 100 := by
    have := child2_slice 0 (by omega)
    norm_num at this ⊢
    exact this
  have hs2 : ((evenMatches 1 1).drop ((2 - 1) * 100)).take 100 = mhits 851 100 := by
    have := child2_slice 100 (by omega)
    norm_num at this ⊢
    exact this
  have hs3 : ((evenMatches 1 1).drop ((3 - 1) * 100)).take 100 = mhits 951 100 := by
    have := child2_slice 200 (by omega)
    norm_num at this ⊢
    exact this
  have hs4 : ((evenMatches 1 1).drop ((4 - 1) * 100)).take 100 = mhits 1051 100 := by
    have := child2_slice 300 (by omega)
    norm_num at this ⊢
    exact this
  have hs5 : ((evenMatches 1 1).drop ((5 - 1) * 100)).take 100 = mhits 1151 100 := by
    have := child2_slice 400 (by omega)
    norm_num at this ⊢
    exact this
  have hs6 : ((evenMatches 1 1).drop ((6 - 1) * 100)).take 100 = mhits 1251 100 := by
    have := child2_slice 500 (by omega)
    norm_num at this ⊢
    exact this
  have hs7 : ((evenMatches 1 1).drop ((7 - 1) * 100)).take 100 = mhits 1351 100 := by
    have := child2_slice 600 (by omega)
    norm_num at this ⊢
    exact this
  have hs8 : ((evenMatches 1 1).drop ((8 - 1) * 100)).take 100 = mhits 1451 50 := by
    rw [evenMatches_11, mhits_drop, mhits_take]
    norm_num
  have hlen100 : ∀ (a : Nat), (mhits a 100).length = 100 := fun a => mhits_length a 100
  have e1 : fetchPages evenProv "q" 1 1 none 10 1 (keyed 1 1000) 0
      = fetchPages evenProv "q" 1 1 none 9 2 (keyed 1 1000) 0 := by
    refine evenPages_continue 1 1 9 1 _ _ _ _ ?_ ?_ (by omega)
    · rw [hs1]
      exact insert_dup 100 751 1000 0 (by omega) (by omega)
    · rw [hs1, mhits_length]
  have e2 : fetchPages evenProv "q" 1 1 none 9 2 (keyed 1 1000) 0
      = fetchPages evenProv "q" 1 1 none 8 3 (keyed 1 1000) 0 := by
    refine evenPages_continue 1 1 8 2 _ _ _ _ ?_ ?_ (by omega)
    · rw [hs2]
      exact insert_dup 100 851 1000 0 (by omega) (by omega)
    · rw [hs2, mhits_length]
  have e3 : fetchPages evenProv "q" 1 1 none 8 3 (keyed 1 1000) 0
      = fetchPages evenProv "q" 1 1 none 7 4 (keyed 1 1050) 50 := by
    refine evenPages_continue 1 1 7 3 _ _ _ _ ?_ ?_ (by omega)
    · rw [hs3]
      have hsplit50 : mhits 951 100 = mhits 951 50 ++ mhits 1001 50 := by
        have := mhits_append 951 50 50
        norm_num at this
        exact this
      rw [hsplit50, insertHits_append_hits,
        insert_dup 50 951 1000 0 (by omega) (by omega)]
      have := insert_fresh 50 1000 0
      norm_num at this
      exact this
    · rw [hs3, mhits_length]
  have e4 : fetchPages evenProv "q" 1 1 none 7 4 (keyed 1 1050) 50
      = fetchPages evenProv "q" 1 1 none 6 5 (keyed 1 1150) 150 := by
    refine evenPages_continue 1 1 6 4 _ _ _ _ ?_ ?_ (by omega)
    · rw [hs4]
      have := insert_fresh 100 1050 50
      norm_num at this
      exact this
    · rw [hs4, mhits_length]
  have e5 : fetchPages evenProv "q" 1 1 none 6 5 (keyed 1 1150) 150
      = fetchPages evenProv "q" 1 1 none 5 6 (keyed 1 1250) 250 := by
    refine evenPages_continue 1 1 5 5 _ _ _ _ ?_ ?_ (by omega)
    · rw [hs5]
      have := insert_fresh 100 1150 150
      norm_num at this
      exact this
    · rw [hs5, mhits_length]
  have e6 : fetchPages evenProv "q" 1 1 none 5 6 (keyed 1 1250) 250
      = fetchPages evenProv "q" 1 1 none 4 7 (keyed 1 1350) 350 := by
    refine evenPages_continue 1 1 4 6 _ _ _ _ ?_ ?_ (by omega)
    · rw [hs6]
      have := insert_fresh 100 1250 250
      norm_num at this
      exact this
    · rw [hs6, mhits_length]
  have e7 : fetchPages evenProv "q" 1 1 none 4 7 (keyed 1 1350) 350
      = fetchPages evenProv "q" 1 1 none 3 8 (keyed 1 1450) 450 := by
    refine evenPages_continue 1 1 3 7 _ _ _ _ ?_ ?_ (by omega)
    · rw [hs7]
      have := insert_fresh 100 1350 350
      norm_num at this
      exact this
    · rw [hs7, mhits_length]
  rw [e1, e2, e3, e4, e5, e6, e7]
  refine evenPages_done 1 1 2 8 _ _ _ _ ?_ ?_ ?_ ?_
  · rw [hs8]
    have := insert_fresh 50 1450 450
    norm_num at this
    exact this
  · rw [hs8]
    intro hnil
    have := congrArg List.length hnil
    rw [mhits_length] at this
    cases this
  · rw [hs8, mhits_length]
    exact Or.inl (by omega)
  · rw [len11]
    intro hcon
    omega

lemma fetch_split_result (P : Provider) (q : String) (s e : ℤ) (m : PRMap)
    (dbg : Option Nat) (fuel : Nat) (m' m1 m2 : PRMap) (c' c1 c2 : Nat)
    (h : fetchPages P q (dayOfMicros s) (dayOfMicros e) dbg 10 1 m 0 = .split m' c')
    (h1 : fetch_prs_with_time_partition P q s (s + tdHalf (e - s)) m' dbg fuel
            = some (m1, c1))
    (h2 : fetch_prs_with_time_partition P q (s + tdHalf (e - s) + usPerDay) e m1 dbg fuel
            = some (m2, c2)) :
    fetch_prs_with_time_partition P q s e m dbg (fuel + 1) = some (m2, c1 + c2) := by
  rw [fetch_prs_with_time_partition, h]
  dsimp only
  rw [h1]
  dsimp only
  rw [h2]

lemma even_run :
    fetch_prs_with_time_partition evenProv "q" 0 usPerDay [] none 2
      = some (keyed 1 1500, 500) := by
  have hd0 : dayOfMicros 0 = 0 := by decide
  have hd1 : dayOfMicros usPerDay = 1 := by decide
  have hmid : (0 : ℤ) + tdHalf (usPerDay - 0) = 43200000000 := by decide
  have hdm : dayOfMicros 43200000000 = 0 := by decide
  have hdm1 : dayOfMicros (43200000000 + usPerDay) = 1 := by decide
  have hsplitrun : fetchPages evenProv "q" (dayOfMicros 0) (dayOfMicros usPerDay) none 10 1 [] 0
      = .split (keyed 1 1000) 1000 := by
    rw [hd0, hd1]
    exact parent_run
  have hchild1 : fetch_prs_with_time_partition evenProv "q" 0 (0 + tdHalf (usPerDay - 0))
      (keyed 1 1000) none 1 = some (keyed 1 1000, 0) := by
    rw [hmid, fetch_prs_with_time_partition]
    have hh : fetchPages evenProv "q" (dayOfMicros 0) (dayOfMicros 43200000000) none 10 1
        (keyed 1 1000) 0 = .done (keyed 1 1000) 0 := by
      rw [hd0, hdm]
      exact child1_run
    rw [hh]
  have hchild2 : fetch_prs_with_time_partition evenProv "q" (0 + tdHalf (usPerDay - 0) + usPerDay)
      usPerDay (keyed 1 1000) none 1 = some (keyed 1 1500, 500) := by
    rw [hmid, fetch_prs_with_time_partition]
    have hh : fetchPages evenProv "q" (dayOfMicros (43200000000 + usPerDay)) (dayOfMicros usPerDay)
        none 10 1 (keyed 1 1000) 0 = .done (keyed 1 1500) 500 := by
      rw [hdm1, hd1]
      exact child2_run
    rw [hh]
  have := fetch_split_result evenProv "q" 0 usPerDay [] none 1
    (keyed 1 1000) (keyed 1 1000) (keyed 1 1500) 1000 0 500 hsplitrun hchild1 hchild2
  exact this

/-! ## C1: overflow bisection and partition completeness -/

/-- C1: when the provider reports more than 1000 total matches and the page
ceiling (page 10) is reached, the paging loop signals an overflow split
(and only then); the function then bisects the date range at its midpoint,
recursively fetches `[start, mid]` and `[mid + 1 day, end]`, and returns
the sum of the two sub-counts; the two sub-ranges cover the original range
at day granularity and are disjoint; and for the faithful synthetic
provider with exactly 1500 matches evenly spread over two days, the dedup
map collected is exactly the 1500 items keyed by their ids, each exactly
once, with the split having been taken; conversely, reaching page 10 with
a non-empty page and a reported total over 1000 always produces the
overflow split. -/
theorem C1_partition_overflow_bisection :
    (∀ (P : Provider) (q : String) (sDay eDay : ℤ) (dbg : Option Nat)
        (left page : Nat) (m : PRMap) (c : Nat) (m' : PRMap) (c' : Nat),
      fetchPages P q sDay eDay dbg left page m c = .split m' c' →
      ∃ total : Nat, ∃ items : List SearchHit,
        P.search q sDay eDay 10 = some (total, items) ∧ 1000 < total ∧ items ≠ [])
    ∧ (∀ (P : Provider) (q : String) (s e : ℤ) (m : PRMap) (dbg : Option Nat)
        (fuel : Nat) (m' m1 m2 : PRMap) (c' c1 c2 : Nat),
      fetchPages P q (dayOfMicros s) (dayOfMicros e) dbg 10 1 m 0 = .split m' c' →
      fetch_prs_with_time_partition P q s (s + tdHalf (e - s)) m' dbg fuel = some (m1, c1) →
      fetch_prs_with_time_partition P q (s + tdHalf (e - s) + usPerDay) e m1 dbg fuel
        = some (m2, c2) →
      fetch_prs_with_time_partition P q s e m dbg (fuel + 1) = some (m2, c1 + c2))
    ∧ (∀ s e : ℤ, s ≤ e →
      (∀ d : ℤ, (dayOfMicros s ≤ d ∧ d ≤ dayOfMicros e) ↔
        ((dayOfMicros s ≤ d ∧ d ≤ dayOfMicros (s + tdHalf (e - s)))
          ∨ (dayOfMicros (s + tdHalf (e - s) + usPerDay) ≤ d ∧ d ≤ dayOfMicros e)))
      ∧ dayOfMicros (s + tdHalf (e - s)) < dayOfMicros (s + tdHalf (e - s) + usPerDay))
    ∧ (fetch_prs_with_time_partition evenProv "q" 0 usPerDay [] none 2
        = some (keyed 1 1500, 500)
      ∧ (keyed 1 1500).map Prod.fst = List.range' 1 1500
      ∧ (List.range' 1 1500).Nodup
      ∧ (∀ i : Nat, containsKey i (keyed 1 1500) = true ↔ 1 ≤ i ∧ i ≤ 1500))
    ∧ (∀ (P : Provider) (q : String) (sDay eDay : ℤ) (dbg : Option Nat)
        (left : Nat) (m : PRMap) (c : Nat) (total : Nat) (items : List SearchHit),
      dbgReached dbg c = false → P.search q sDay eDay 10 = some (total, items) →
      items ≠ [] → 1000 < total →
      fetchPages P q sDay eDay dbg (left + 1) 10 m c
        = .split (insertHits m c items).1 (insertHits m c items).2) := by
  refine ⟨?_, ?_, ?_, ⟨even_run, ?_, List.nodup_range' _ _, ?_⟩, ?_⟩
  · exact fun P q sD eD dbg left page m c m' c' h =>
      fetchPages_split_inversion P q sD eD dbg left page m c m' c' h
  · exact fun P q s e m dbg fuel m' m1 m2 c' c1 c2 h h1 h2 =>
      fetch_split_result P q s e m dbg fuel m' m1 m2 c' c1 c2 h h1 h2
  · exact fun s e h => day_cover s e h
  · rw [keyed, List.map_map]
    have : (Prod.fst ∘ fun i => (i, evenHit i)) = id := rfl
    rw [this, List.map_id]
  · intro i
    rw [containsKey_keyed]
    omega
  · exact fun P q sDay eDay dbg left m c total items hd hs hn ho =>
      fetchPages_overflow_split P q sDay eDay dbg left m c total items hd hs hn ho

/-- C1 witness: for a provider reporting 1001 matches over day range
`[0, 1]` whose pages repeat one item, the loop splits after page 10 with
one distinct item collected, the recursion composes the two (empty-result)
halves to `some (_, 0 + 0)`, the inversion recovers the overflowing
page-10 response, and the two halves of `[0, 1 day]` are disjoint at day
granularity. -/
theorem C1_partition_overflow_bisection_witness :
    fetch_prs_with_time_partition repProv "q" 0 usPerDay [] none 2
      = some ([(1, evenHit 1)], 0 + 0)
    ∧ (∃ total : Nat, ∃ items : List SearchHit,
        repProv.search "q" (dayOfMicros 0) (dayOfMicros usPerDay) 10 = some (total, items)
          ∧ 1000 < total ∧ items ≠ [])
    ∧ dayOfMicros ((0 : ℤ) + tdHalf (usPerDay - 0))
        < dayOfMicros ((0 : ℤ) + tdHalf (usPerDay - 0) + usPerDay) :=
  ⟨C1_partition_overflow_bisection.2.1 repProv "q" 0 usPerDay [] none 1
      [(1, evenHit 1)] [(1, evenHit 1)] [(1, evenHit 1)] 1 0 0
      (by decide) (by decide) (by decide),
   C1_partition_overflow_bisection.1 repProv "q" (dayOfMicros 0) (dayOfMicros usPerDay)
      none 10 1 [] 0 [(1, evenHit 1)] 1 (by decide),
   (C1_partition_overflow_bisection.2.2.1 0 usPerDay (by decide)).2⟩

/-! ## C2: the shared dedup map and the returned counts -/

/-- C2 (counterexample): the claim "the count returned by each partition is
the number of newly added items" fails for a partition that splits: with a
provider reporting 1001 matches over `[0, 1]` whose pages repeat one item
(and nothing in either half), the call adds one new item to the shared map
before splitting, yet returns `0` — the pre-split additions are not
counted. -/
theorem C2_split_count_counterexample :
    fetch_prs_with_time_partition repProv "q" 0 usPerDay [] none 2
      = some ([(1, evenHit 1)], 0)
    ∧ ([(1, evenHit 1)] : PRMap).length ≠ 0 := by
  constructor
  · decide
  · decide

/-- C2 (amended): one dedup map keyed by provider item id is shared across
all query patterns and all recursive sub-ranges: a fetch only ever appends
items whose ids are not yet in the map (an item already present is never
added again, and distinct keys stay distinct), and the returned count never
exceeds the number of newly added items, with equality — count returned =
newly added — for every partition whose paging loop completes without
splitting; an item matched by two distinct query patterns yields exactly
one metadata record for its url. -/
theorem C2_shared_dedup_map :
    (∀ (P : Provider) (q : String) (dbg : Option Nat) (fuel : Nat) (s e : ℤ)
        (m m' : PRMap) (c : Nat),
      fetch_prs_with_time_partition P q s e m dbg fuel = some (m', c) →
      ∃ f : PRMap, m' = m ++ f
        ∧ (∀ kv ∈ f, containsKey kv.1 m = false)
        ∧ ((m.map Prod.fst).Nodup → (m'.map Prod.fst).Nodup)
        ∧ c ≤ f.length)
    ∧ (∀ (P : Provider) (q : String) (sDay eDay : ℤ) (dbg : Option Nat)
        (left : Nat) (m m' : PRMap) (c' : Nat),
      fetchPages P q sDay eDay dbg left 1 m 0 = .done m' c' →
      ∃ f : PRMap, m' = m ++ f ∧ c' = f.length)
    ∧ (fetch_all_prs_metadata provTwo "agentx" none (200 * usPerDay) none 1
        = some ([extract_pr_metadata (hitU 5 "u5"), extract_pr_metadata (hitU 6 "u6"),
            extract_pr_metadata (hitU 7 "u7")], [2, 1, 0])
      ∧ ([extract_pr_metadata (hitU 5 "u5"), extract_pr_metadata (hitU 6 "u6"),
            extract_pr_metadata (hitU 7 "u7")].filter
          (fun r => r.html_url = some "u6")).length = 1) := by
  refine ⟨?_, ?_, by decide, by decide⟩
  · exact fun P q dbg fuel s e m m' c h => fetch_extends P q dbg fuel s e m m' c h
  · intro P q sDay eDay dbg left m m' c' h
    rcases fetchPages_extends P q sDay eDay dbg left 1 m 0 m' c' (Or.inl h) with
      ⟨f, hm, hc, _, _⟩
    exact ⟨f, hm, by omega⟩

/-- C2 witness: on the repeating-page provider run, the shared map extends
`[]` by fresh keys only; a loop over an empty half completes without
splitting, returning exactly its (zero) newly added items. -/
theorem C2_shared_dedup_map_witness :
    (∃ f : PRMap, [(1, evenHit 1)] = [] ++ f
      ∧ (∀ kv ∈ f, containsKey kv.1 [] = false)
      ∧ ((([] : PRMap).map Prod.fst).Nodup → (([(1, evenHit 1)] : PRMap).map Prod.fst).Nodup)
      ∧ 0 ≤ f.length)
    ∧ (∃ f : PRMap, ([] : PRMap) = [] ++ f ∧ 0 = f.length) :=
  ⟨C2_shared_dedup_map.1 repProv "q" none 2 0 usPerDay [] [(1, evenHit 1)] 0 (by decide),
   C2_shared_dedup_map.2.1 repProv "q" 0 0 none 10 [] [] 0 (by decide)⟩
